import Mathlib

set_option maxRecDepth 8192
set_option maxHeartbeats 2000000

/-!
Verification of the accessor parsing / validation library.

Shallow embedding of `src/parser.rs`, `src/string_interpolator.rs`,
`src/validation.rs`, `src/error.rs` and `src/lib.rs`.

Modelling conventions:
* Rust `&str` / `String` text is `List Char` (`Str` below); Rust byte length
  (`str::len`) is `utf8Len`.
* `nom_locate::LocatedSpan` is `LSpan`: the consumed prefix (reversed) plus
  the remaining input.  `get_utf8_column() - 1` is `LSpan.col`: the number of
  characters since the last newline of the consumed prefix, exactly as
  `nom_locate` computes it.
* `nom::Err` is `NomErr` with the `error` (recoverable) / `failure` (fatal)
  distinction; `Incomplete` cannot arise for these complete-input parsers.
* Rust `u32` distances in `edit_distance` are `Nat` reduced `% 2^32` at each
  arithmetic step that could wrap; `usize` is modelled as `Nat` with the
  64-bit bound `2^64` where `str::parse::<usize>` can overflow.
-/

namespace Accessor

abbrev Str := List Char

/-- Rust `str::len`: the UTF-8 byte length of a string. -/
def utf8Len (s : Str) : Nat := (s.map Char.utf8Size).sum

/-- The character `{` (written via its code point to keep it out of plain text). -/
def lbrace : Char := Char.ofNat 123

/-- The character `}` (written via its code point to keep it out of plain text). -/
def rbrace : Char := Char.ofNat 125

/-- `RESERVED_TOKEN` from parser.rs. -/
def RESERVED_TOKEN : Str := [lbrace, rbrace, '[', ']', '.', '$', '\"']

/-- `RESERVED_RAW_LITERAL` from parser.rs. -/
def RESERVED_RAW_LITERAL : Str := ['\"']

/-- `is_separator` from parser.rs. -/
def is_separator (c : Char) : Bool := c = '.' || c = '[' || c = rbrace

/-! ## Spans and errors (`lib.rs`, `error.rs`) -/

/-- `AccessorParserSpan` from lib.rs.  The Rust fields are `start`/`end`;
`end` is a Lean keyword so the second field is called `stop`. -/
structure AccessorParserSpan where
  start : Nat
  stop : Nat
deriving DecidableEq, Repr

/-- `InvalidUnicodeError` from error.rs. -/
inductive InvalidUnicodeError where
  | MissingOpeningBracket
  | MissingClosingBracket
  | InvalidCodeLength
  | InvalidHexadecimal
  | InvalidCodePoint
deriving DecidableEq, Repr

/-- `AccessorParserErrorKind` from error.rs.  `Unknown` abstracts from the
wrapped `nom::error::ErrorKind`, which the library never inspects. -/
inductive AccessorParserErrorKind where
  | InvalidCharacter (c : Char)
  | InvalidEscapeCharacter (c : Char)
  | InvalidUnicode (e : InvalidUnicodeError)
  | InvalidAccessorKey
  | MissingClosingBracket
  | InvalidAccessor
  | NotANumber
  | Unknown
deriving DecidableEq, Repr

/-- `AccessorParserError` from error.rs. -/
structure AccessorParserError where
  kind : AccessorParserErrorKind
  span : AccessorParserSpan
deriving DecidableEq, Repr

/-- `nom::Err`: `error` is the recoverable `Err::Error`, `failure` the fatal
`Err::Failure`. -/
inductive NomErr where
  | error (e : AccessorParserError)
  | failure (e : AccessorParserError)
deriving DecidableEq, Repr

/-! ## `LocatedSpan` model -/

/-- Model of `nom_locate::LocatedSpan<&str>`: `done` is the already consumed
prefix of the original input, most recent character first; `rest` is the
remaining fragment. -/
structure LSpan where
  done : Str
  rest : Str
deriving DecidableEq, Repr

/-- `get_utf8_column() - 1`: characters between the last newline of the
consumed prefix and the current position. -/
def LSpan.col (l : LSpan) : Nat := (l.done.takeWhile (fun c => c ≠ '\n')).length

/-- Consume `n` characters of the remaining fragment. -/
def LSpan.adv (l : LSpan) (n : Nat) : LSpan :=
  ⟨(l.rest.take n).reverse ++ l.done, l.rest.drop n⟩

/-- A `LocatedSpan` at the start of an input. -/
def LSpan.ofInput (s : Str) : LSpan := ⟨[], s⟩

/-- Parser results: `nom::IResult` with our error type. -/
abbrev PResult (α : Type) := Except NomErr (LSpan × α)

/-- `AccessorParserError::from_error_kind` (error.rs): note it uses
`get_utf8_column()` without the `- 1` used everywhere else. -/
def unknownErr (l : LSpan) : NomErr :=
  .error ⟨.Unknown, ⟨l.col + 1, l.col + 2⟩⟩

/-- `nom::bytes::complete::tag`: returns (rest, matched fragment). -/
def tagP (pat : Str) (input : LSpan) : PResult LSpan :=
  if pat.isPrefixOf input.rest then
    .ok (input.adv pat.length, ⟨input.done, pat⟩)
  else
    .error (unknownErr input)

/-- `nom::character::complete::anychar`. -/
def anycharP (input : LSpan) : PResult Char :=
  match input.rest with
  | [] => .error (unknownErr input)
  | c :: _ => .ok (input.adv 1, c)

/-- `terminated(take_until(c), tag(c))`: consumes through the first occurrence
of `c`, returning the fragment strictly before it (as a `LocatedSpan`). -/
def takeUntilCh (c : Char) (input : LSpan) : PResult LSpan :=
  match input.rest.findIdx? (fun x => x = c) with
  | none => .error (unknownErr input)
  | some i => .ok (input.adv (i + 1), ⟨input.done, input.rest.take i⟩)

/-- `nom::branch::alt` for two parsers: a recoverable error from the first
falls through to the second (the default `ParseError::or` keeps the second
error); fatal failures propagate. -/
def altP {α : Type} (p q : LSpan → PResult α) (input : LSpan) : PResult α :=
  match p input with
  | .ok r => .ok r
  | .error (.failure e) => .error (.failure e)
  | .error (.error _) => q input

/-! ## Numeric literal parsing (`u32::from_str_radix`, `str::parse::<usize>`) -/

/-- Hexadecimal digit value, as accepted by `u32::from_str_radix(_, 16)`. -/
def hexDigitVal (c : Char) : Option Nat :=
  if '0' ≤ c ∧ c ≤ '9' then some (c.toNat - '0'.toNat)
  else if 'a' ≤ c ∧ c ≤ 'f' then some (c.toNat - 'a'.toNat + 10)
  else if 'A' ≤ c ∧ c ≤ 'F' then some (c.toNat - 'A'.toNat + 10)
  else none

/-- Decimal digit value. -/
def decDigitVal (c : Char) : Option Nat :=
  if '0' ≤ c ∧ c ≤ '9' then some (c.toNat - '0'.toNat) else none

/-- Fold digits of the given radix; `none` as soon as a digit is invalid. -/
def parseDigits (digit : Char → Option Nat) (radix : Nat) : Str → Nat → Option Nat
  | [], acc => some acc
  | c :: rest, acc =>
    match digit c with
    | none => none
    | some d => parseDigits digit radix rest (acc * radix + d)

/-- Strip the optional leading `+` accepted by Rust's numeric parsers. -/
def stripPlus (s : Str) : Str := if s.head? = some '+' then s.tail else s

/-- `u32::from_str_radix(s, 16)`: optional leading `+`, then a nonempty run of
hex digits, value below `2^32`. -/
def hexParse (s : Str) : Option Nat :=
  if (stripPlus s).isEmpty then none
  else match parseDigits hexDigitVal 16 (stripPlus s) 0 with
    | none => none
    | some v => if v < 2 ^ 32 then some v else none

/-- `str::parse::<usize>()`: optional leading `+`, then a nonempty run of
decimal digits, value below `2^64` (usize modelled as 64 bits). -/
def decParse (s : Str) : Option Nat :=
  if (stripPlus s).isEmpty then none
  else match parseDigits decDigitVal 10 (stripPlus s) 0 with
    | none => none
    | some v => if v < 2 ^ 64 then some v else none

/-- `char::from_u32` succeeds exactly on Unicode scalar values. -/
def isScalarValue (n : Nat) : Bool := n < 0xd800 || (0xdfff < n && n < 0x110000)

/-! ## Character-level parsers (`parser.rs`) -/

/-- `take_char` from parser.rs. -/
def take_char (reserved : Str) (input : LSpan) : PResult Char :=
  match anycharP input with
  | .error e => .error e
  | .ok (rest, ch) =>
    if reserved.contains ch then
      .error (.failure ⟨.InvalidCharacter ch, ⟨input.col, input.col + 1⟩⟩)
    else
      .ok (rest, ch)

/-- `take_unicode` from parser.rs. -/
def take_unicode (input : LSpan) : PResult Char :=
  match tagP [lbrace] input with
  | .error _ =>
    .error (.failure ⟨.InvalidUnicode .MissingOpeningBracket, ⟨input.col, input.col + 1⟩⟩)
  | .ok (input1, _) =>
    match takeUntilCh rbrace input1 with
    | .error _ =>
      .error (.failure ⟨.InvalidUnicode .MissingClosingBracket,
        ⟨input1.col, input1.col + input1.rest.length⟩⟩)
    | .ok (input2, code) =>
      let cps : AccessorParserSpan := ⟨code.col, code.col + code.rest.length⟩
      if utf8Len code.rest < 2 ∨ 8 < utf8Len code.rest then
        .error (.failure ⟨.InvalidUnicode .InvalidCodeLength, cps⟩)
      else
        match hexParse code.rest with
        | none => .error (.failure ⟨.InvalidUnicode .InvalidHexadecimal, cps⟩)
        | some n =>
          if isScalarValue n then .ok (input2, Char.ofNat n)
          else .error (.failure ⟨.InvalidUnicode .InvalidCodePoint, cps⟩)

/-- `take_escaped_char` from parser.rs. -/
def take_escaped_char (reserved : Str) (input : LSpan) : PResult Char :=
  match tagP ['\\'] input with
  | .error e => .error e
  | .ok (input1, _first) =>
    match anycharP input1 with
    | .error e => .error e
    | .ok (rest, ch) =>
      if ch = 'u' then take_unicode rest
      else if ch = 'n' then .ok (rest, '\n')
      else if ch = 't' then .ok (rest, '\t')
      else if ch = 'r' then .ok (rest, '\r')
      else if ch = '\\' then .ok (rest, '\\')
      else if reserved.contains ch then .ok (rest, ch)
      else .error (.failure ⟨.InvalidEscapeCharacter ch, ⟨input.col, rest.col⟩⟩)

/-! ## Consumption lemmas (loop termination) -/

lemma LSpan.adv_rest (l : LSpan) (n : Nat) : (l.adv n).rest = l.rest.drop n := rfl

lemma LSpan.adv_rest_length (l : LSpan) (n : Nat) :
    (l.adv n).rest.length = l.rest.length - n := by
  simp [LSpan.adv]

lemma tagP_length {pat : Str} {input next tk : LSpan}
    (h : tagP pat input = .ok (next, tk)) :
    next.rest.length = input.rest.length - pat.length ∧
      pat.length ≤ input.rest.length := by
  unfold tagP at h
  split at h
  · rename_i hpre
    rw [List.isPrefixOf_iff_prefix] at hpre
    cases h
    exact ⟨LSpan.adv_rest_length _ _, hpre.length_le⟩
  · cases h

lemma tagP_advances {pat : Str} {input next tk : LSpan}
    (h : tagP pat input = .ok (next, tk)) (hne : pat ≠ []) :
    next.rest.length < input.rest.length := by
  obtain ⟨h1, h2⟩ := tagP_length h
  have : 0 < pat.length := List.length_pos.mpr hne
  omega

lemma anycharP_advances {input next : LSpan} {c : Char}
    (h : anycharP input = .ok (next, c)) :
    next.rest.length < input.rest.length := by
  unfold anycharP at h
  split at h
  · cases h
  · rename_i c rest heq
    cases h
    simp [LSpan.adv_rest_length, heq]

lemma findIdx?_go_bounds {p : Char → Bool} :
    ∀ (l : Str) (s i : Nat), List.findIdx? p l s = some i → s ≤ i ∧ i < s + l.length := by
  intro l
  induction l with
  | nil => intro s i h; simp [List.findIdx?] at h
  | cons x xs ih =>
    intro s i h
    rw [List.findIdx?_cons] at h
    split at h
    · cases h; simp
    · have := ih (s + 1) i h
      simp only [List.length_cons]
      omega

lemma findIdx?_lt_length {p : Char → Bool} {l : Str} {i : Nat}
    (h : l.findIdx? p = some i) : i < l.length := by
  have := findIdx?_go_bounds l 0 i h
  omega

lemma takeUntilCh_advances {c : Char} {input next inner : LSpan}
    (h : takeUntilCh c input = .ok (next, inner)) :
    next.rest.length < input.rest.length := by
  unfold takeUntilCh at h
  split at h
  · cases h
  · rename_i i heq
    cases h
    have := findIdx?_lt_length heq
    simp [LSpan.adv_rest_length]
    omega

lemma take_unicode_mono {input next : LSpan} {ch : Char}
    (h : take_unicode input = .ok (next, ch)) :
    next.rest.length ≤ input.rest.length := by
  unfold take_unicode at h
  split at h
  · cases h
  · rename_i input1 tk htag
    split at h
    · cases h
    · rename_i input2 code huntil
      have h1 := (tagP_length htag).1
      have h2 := takeUntilCh_advances huntil
      split at h
      · cases h
      · split at h
        · cases h
        · split at h
          · cases h; omega
          · cases h

lemma take_char_advances {reserved : Str} {input next : LSpan} {ch : Char}
    (h : take_char reserved input = .ok (next, ch)) :
    next.rest.length < input.rest.length := by
  unfold take_char at h
  split at h
  · cases h
  · rename_i rest c hany
    split at h
    · cases h
    · cases h
      exact anycharP_advances hany

lemma take_escaped_char_advances {reserved : Str} {input next : LSpan} {ch : Char}
    (h : take_escaped_char reserved input = .ok (next, ch)) :
    next.rest.length < input.rest.length := by
  unfold take_escaped_char at h
  split at h
  · cases h
  · rename_i input1 tk htag
    split at h
    · cases h
    · rename_i rest c hany
      have h1 := tagP_advances htag (by simp)
      have h2 := anycharP_advances hany
      split at h
      · have := take_unicode_mono h
        omega
      · split at h
        · cases h; omega
        · split at h
          · cases h; omega
          · split at h
            · cases h; omega
            · split at h
              · cases h; omega
              · split at h
                · cases h; omega
                · cases h

lemma scanAlt_advances {reserved : Str} {input next : LSpan} {ch : Char}
    (h : altP (take_escaped_char reserved) (take_char reserved) input = .ok (next, ch)) :
    next.rest.length < input.rest.length := by
  unfold altP at h
  split at h
  · rename_i heq
    cases h
    exact take_escaped_char_advances heq
  · cases h
  · exact take_char_advances h

/-! ## The escaped-text scanner (`take_string_with_escape_until`) -/

/-- The loop body of `take_string_with_escape_until` from parser.rs:
stop (without consuming) at end of input or when `cond` holds on the next
character, otherwise decode one (possibly escaped) character via
`alt((take_escaped_char, take_char))` and append it to the accumulator. -/
def take_string_loop (cond : Char → Bool) (reserved : Str) (input : LSpan)
    (buf : Str) : PResult Str :=
  match input.rest with
  | [] => .ok (input, buf)
  | c :: _ =>
    if cond c then .ok (input, buf)
    else
      match h : altP (take_escaped_char reserved) (take_char reserved) input with
      | .error e => .error e
      | .ok (next, ch) => take_string_loop cond reserved next (buf ++ [ch])
termination_by input.rest.length
decreasing_by exact scanAlt_advances h

/-- `take_string_with_escape_until` from parser.rs (the returned closure,
applied to an input). -/
def take_string_with_escape_until (cond : Char → Bool) (reserved : Str)
    (input : LSpan) : PResult Str :=
  take_string_loop cond reserved input []

lemma take_string_loop_mono (cond : Char → Bool) (reserved : Str) :
    ∀ (n : Nat) (input : LSpan) (buf : Str) (next : LSpan) (res : Str),
      input.rest.length ≤ n →
      take_string_loop cond reserved input buf = .ok (next, res) →
      next.rest.length ≤ input.rest.length := by
  intro n
  induction n with
  | zero =>
    intro input buf next res hle h
    rw [take_string_loop] at h
    split at h
    · cases h
      exact le_rfl
    · rename_i c cs hrest
      rw [hrest] at hle
      simp at hle
  | succ n ih =>
    intro input buf next res hle h
    rw [take_string_loop] at h
    split at h
    · cases h
      exact le_rfl
    · split at h
      · cases h
        exact le_rfl
      · split at h
        · cases h
        · rename_i next1 ch halt
          have hadv := scanAlt_advances halt
          have hrec := ih next1 (buf ++ [ch]) next res (by omega) h
          omega

lemma take_string_with_escape_until_mono {cond : Char → Bool} {reserved : Str}
    {input next : LSpan} {res : Str}
    (h : take_string_with_escape_until cond reserved input = .ok (next, res)) :
    next.rest.length ≤ input.rest.length :=
  take_string_loop_mono cond reserved input.rest.length input [] next res le_rfl h

/-! ## AST (`lib.rs`) -/

/-- `AccessorKey` from lib.rs. -/
inductive AccessorKey where
  | String (s : Str)
  | Numeric (n : Nat)
deriving DecidableEq, Repr

/-- `SpannedAccessorKey` from lib.rs. -/
structure SpannedAccessorKey where
  key : AccessorKey
  span : AccessorParserSpan
deriving DecidableEq, Repr

/-- `SpannedAccessor` from lib.rs. -/
structure SpannedAccessor where
  keys : List SpannedAccessorKey
  span : AccessorParserSpan
deriving DecidableEq, Repr

/-! ## Key parsers (`parser.rs`) -/

/-- `find_next_separator` from parser.rs.  The Rust function returns the byte
offset `input.len() - rest.len()` and each caller immediately converts it to
a character count via `input.fragment()[..n].chars().count()`; since the
consumed prefix is exactly the characters between the two states, we return
that character count directly. -/
def find_next_separator (input : LSpan) : Nat :=
  match take_string_with_escape_until is_separator RESERVED_TOKEN input with
  | .ok (rest, _) => input.rest.length - rest.rest.length
  | .error _ => input.rest.length

/-- `take_string_key` from parser.rs (`fragment().starts_with('"')` is
`head? = some '"'`). -/
def take_string_key (input : LSpan) : PResult AccessorKey :=
  match tagP ['.'] input with
  | .error _ =>
    .error (.error ⟨.InvalidAccessorKey, ⟨input.col, find_next_separator input⟩⟩)
  | .ok (input1, _) =>
    if input1.rest.head? = some '\"' then
      match tagP ['\"'] input1 with
      | .error e => .error e
      | .ok (input2, _) =>
        match take_string_with_escape_until (fun c => c = '\"') RESERVED_RAW_LITERAL input2 with
        | .error e => .error e
        | .ok (input3, key) =>
          match tagP ['\"'] input3 with
          | .error e => .error e
          | .ok (input4, _) => .ok (input4, .String key)
    else
      match take_string_with_escape_until is_separator RESERVED_TOKEN input1 with
      | .error e => .error e
      | .ok (rest, key) => .ok (rest, .String key)

/-- `take_numeric_key` from parser.rs. -/
def take_numeric_key (input : LSpan) : PResult AccessorKey :=
  match tagP ['['] input with
  | .error _ =>
    .error (.error ⟨.InvalidAccessorKey, ⟨input.col, find_next_separator input⟩⟩)
  | .ok (input1, opening_bracket) =>
    match takeUntilCh ']' input1 with
    | .error _ =>
      .error (.failure ⟨.MissingClosingBracket,
        ⟨opening_bracket.col, opening_bracket.col + 1⟩⟩)
    | .ok (input2, index) =>
      match decParse index.rest with
      | none =>
        .error (.failure ⟨.NotANumber, ⟨index.col, index.col + index.rest.length⟩⟩)
      | some n => .ok (input2, .Numeric n)

/-- `take_key` from parser.rs. -/
def take_key (input : LSpan) : PResult AccessorKey :=
  altP take_string_key take_numeric_key input

/-- `take_spanned_key` from parser.rs: wrap the parsed key with the span of
the characters it consumed. -/
def take_spanned_key (input : LSpan) : PResult SpannedAccessorKey :=
  match take_key input with
  | .error e => .error e
  | .ok (rest, key) =>
    .ok (rest, ⟨key, ⟨input.col, input.col + (input.rest.length - rest.rest.length)⟩⟩)

lemma take_string_key_advances {input next : LSpan} {key : AccessorKey}
    (h : take_string_key input = .ok (next, key)) :
    next.rest.length < input.rest.length := by
  unfold take_string_key at h
  split at h
  · cases h
  · rename_i input1 tk htag
    have h1 := tagP_advances htag (by simp)
    split at h
    · split at h
      · cases h
      · rename_i input2 tk2 htag2
        have h2 := (tagP_length htag2).1
        split at h
        · cases h
        · rename_i input3 res hscan
          have h3 := take_string_with_escape_until_mono hscan
          split at h
          · cases h
          · rename_i input4 tk4 htag4
            have h4 := (tagP_length htag4).1
            cases h
            omega
    · split at h
      · cases h
      · rename_i rest res hscan
        have h2 := take_string_with_escape_until_mono hscan
        cases h
        omega

lemma take_numeric_key_advances {input next : LSpan} {key : AccessorKey}
    (h : take_numeric_key input = .ok (next, key)) :
    next.rest.length < input.rest.length := by
  unfold take_numeric_key at h
  split at h
  · cases h
  · rename_i input1 ob htag
    have h1 := tagP_advances htag (by simp)
    split at h
    · cases h
    · rename_i input2 index huntil
      have h2 := takeUntilCh_advances huntil
      split at h
      · cases h
      · cases h
        omega

lemma take_spanned_key_advances {input next : LSpan} {key : SpannedAccessorKey}
    (h : take_spanned_key input = .ok (next, key)) :
    next.rest.length < input.rest.length := by
  unfold take_spanned_key at h
  split at h
  · cases h
  · rename_i rest k hkey
    cases h
    unfold take_key altP at hkey
    split at hkey
    · rename_i heq
      cases hkey
      exact take_string_key_advances heq
    · cases hkey
    · exact take_numeric_key_advances hkey

/-! ## The accessor parser (`take_spanned_accessor`) -/

/-- The key loop inside `take_spanned_accessor` (parser.rs): keep taking keys;
a fatal failure aborts, a recoverable error ends the loop. -/
def take_keys_loop (input : LSpan) (keys : List SpannedAccessorKey) :
    Except NomErr (LSpan × List SpannedAccessorKey) :=
  match h : take_spanned_key input with
  | .ok (next, key) => take_keys_loop next (keys ++ [key])
  | .error (.failure e) => .error (.failure e)
  | .error (.error _) => .ok (input, keys)
termination_by input.rest.length
decreasing_by exact take_spanned_key_advances h

/-- `take_spanned_accessor` from parser.rs. -/
def take_spanned_accessor (input : LSpan) : PResult SpannedAccessor :=
  match tagP ['$', lbrace] input with
  | .error _ =>
    .error (.failure ⟨.InvalidAccessorKey, ⟨input.col, input.col + 1⟩⟩)
  | .ok (input1, opening) =>
    match take_string_with_escape_until is_separator RESERVED_TOKEN input1 with
    | .error e => .error e
    | .ok (rest, rootTxt) =>
      let root : SpannedAccessorKey :=
        ⟨.String rootTxt, ⟨input1.col, input1.col + (input1.rest.length - rest.rest.length)⟩⟩
      match take_keys_loop rest [root] with
      | .error e => .error e
      | .ok (input2, keys) =>
        match tagP [rbrace] input2 with
        | .error _ =>
          .error (.failure ⟨.MissingClosingBracket, ⟨opening.col, opening.col + 2⟩⟩)
        | .ok (input3, _) =>
          .ok (input3, ⟨keys, ⟨opening.col, input3.col⟩⟩)

lemma take_keys_loop_mono :
    ∀ (n : Nat) (input : LSpan) (keys : List SpannedAccessorKey)
      (next : LSpan) (res : List SpannedAccessorKey),
      input.rest.length ≤ n →
      take_keys_loop input keys = .ok (next, res) →
      next.rest.length ≤ input.rest.length := by
  intro n
  induction n with
  | zero =>
    intro input keys next res hle h
    rw [take_keys_loop] at h
    split at h
    · rename_i next1 key hk
      have := take_spanned_key_advances hk
      omega
    · cases h
    · cases h
      exact le_rfl
  | succ n ih =>
    intro input keys next res hle h
    rw [take_keys_loop] at h
    split at h
    · rename_i next1 key hk
      have hadv := take_spanned_key_advances hk
      have := ih next1 (keys ++ [key]) next res (by omega) h
      omega
    · cases h
    · cases h
      exact le_rfl

lemma take_spanned_accessor_advances {input next : LSpan} {acc : SpannedAccessor}
    (h : take_spanned_accessor input = .ok (next, acc)) :
    next.rest.length < input.rest.length := by
  unfold take_spanned_accessor at h
  split at h
  · cases h
  · rename_i input1 opening htag
    have h1 := tagP_advances htag (by simp)
    split at h
    · cases h
    · rename_i rest rootTxt hscan
      have h2 := take_string_with_escape_until_mono hscan
      simp only [] at h
      split at h
      · cases h
      · rename_i input2 keys hloop
        have h3 := take_keys_loop_mono rest.rest.length rest _ input2 keys le_rfl hloop
        split at h
        · cases h
        · rename_i input3 tk3 htag3
          have h4 := (tagP_length htag3).1
          cases h
          omega

/-! ## The string interpolator (`string_interpolator.rs`) -/

/-- `SpannedInterpolatorSegment` from string_interpolator.rs.  The Rust
fields are `prefix`/`accessor`; `prefix` is a reserved word in Lean, so the
literal text field is called `pre`. -/
structure SpannedInterpolatorSegment where
  pre : Str
  accessor : SpannedAccessor
deriving DecidableEq, Repr

/-- `SpannedStringInterpolator` from string_interpolator.rs.  The Rust
fields are `segments`/`postfix`; `postfix` is a reserved word in Lean, so the
trailing literal field is called `post`. -/
structure SpannedStringInterpolator where
  segments : List SpannedInterpolatorSegment
  post : Str
deriving DecidableEq, Repr

/-- The loop of `take_spanned_string_interpolator` (string_interpolator.rs). -/
def take_interp_loop (input : LSpan) (segments : List SpannedInterpolatorSegment) :
    Except NomErr SpannedStringInterpolator :=
  match hs : take_string_with_escape_until (fun c => c = '$') ['$'] input with
  | .error e => .error e
  | .ok (rest, prefixTxt) =>
    if rest.rest.isEmpty then
      .ok ⟨segments, prefixTxt⟩
    else
      match h : take_spanned_accessor rest with
      | .error e => .error e
      | .ok (rest2, accessor) =>
        take_interp_loop rest2 (segments ++ [⟨prefixTxt, accessor⟩])
termination_by input.rest.length
decreasing_by
  have h1 := take_string_with_escape_until_mono hs
  have h2 := take_spanned_accessor_advances h
  omega

/-- `take_spanned_string_interpolator` from string_interpolator.rs. -/
def take_spanned_string_interpolator (input : LSpan) :
    Except NomErr SpannedStringInterpolator :=
  take_interp_loop input []

/-! ## Fuelled evaluation versions of the parser

The three loops above recurse by well-founded recursion on the remaining
input, so the kernel cannot evaluate them directly.  The `...F` definitions
below are the same parsers with an explicit structural bound (`fuel`); every
loop iteration consumes at least one input character, so any
`fuel ≥ input.rest.length` yields exactly the original functions (the
`..._eq` lemmas).  They exist only so that concrete parser runs in the claim
theorems can be settled by `decide`. -/

def take_string_loopF (cond : Char → Bool) (reserved : Str) :
    Nat → LSpan → Str → PResult Str
  | 0, input, buf => .ok (input, buf)
  | fuel + 1, input, buf =>
    match input.rest with
    | [] => .ok (input, buf)
    | c :: _ =>
      if cond c then .ok (input, buf)
      else
        match altP (take_escaped_char reserved) (take_char reserved) input with
        | .error e => .error e
        | .ok (next, ch) => take_string_loopF cond reserved fuel next (buf ++ [ch])

def take_string_with_escape_untilF (fuel : Nat) (cond : Char → Bool)
    (reserved : Str) (input : LSpan) : PResult Str :=
  take_string_loopF cond reserved fuel input []

def find_next_separatorF (fuel : Nat) (input : LSpan) : Nat :=
  match take_string_with_escape_untilF fuel is_separator RESERVED_TOKEN input with
  | .ok (rest, _) => input.rest.length - rest.rest.length
  | .error _ => input.rest.length

def take_string_keyF (fuel : Nat) (input : LSpan) : PResult AccessorKey :=
  match tagP ['.'] input with
  | .error _ =>
    .error (.error ⟨.InvalidAccessorKey, ⟨input.col, find_next_separatorF fuel input⟩⟩)
  | .ok (input1, _) =>
    if input1.rest.head? = some '\"' then
      match tagP ['\"'] input1 with
      | .error e => .error e
      | .ok (input2, _) =>
        match take_string_with_escape_untilF fuel (fun c => c = '\"') RESERVED_RAW_LITERAL input2 with
        | .error e => .error e
        | .ok (input3, key) =>
          match tagP ['\"'] input3 with
          | .error e => .error e
          | .ok (input4, _) => .ok (input4, .String key)
    else
      match take_string_with_escape_untilF fuel is_separator RESERVED_TOKEN input1 with
      | .error e => .error e
      | .ok (rest, key) => .ok (rest, .String key)

def take_numeric_keyF (fuel : Nat) (input : LSpan) : PResult AccessorKey :=
  match tagP ['['] input with
  | .error _ =>
    .error (.error ⟨.InvalidAccessorKey, ⟨input.col, find_next_separatorF fuel input⟩⟩)
  | .ok (input1, opening_bracket) =>
    match takeUntilCh ']' input1 with
    | .error _ =>
      .error (.failure ⟨.MissingClosingBracket,
        ⟨opening_bracket.col, opening_bracket.col + 1⟩⟩)
    | .ok (input2, index) =>
      match decParse index.rest with
      | none =>
        .error (.failure ⟨.NotANumber, ⟨index.col, index.col + index.rest.length⟩⟩)
      | some n => .ok (input2, .Numeric n)

def take_keyF (fuel : Nat) (input : LSpan) : PResult AccessorKey :=
  altP (take_string_keyF fuel) (take_numeric_keyF fuel) input

def take_spanned_keyF (fuel : Nat) (input : LSpan) : PResult SpannedAccessorKey :=
  match take_keyF fuel input with
  | .error e => .error e
  | .ok (rest, key) =>
    .ok (rest, ⟨key, ⟨input.col, input.col + (input.rest.length - rest.rest.length)⟩⟩)

def take_keys_loopF : Nat → LSpan → List SpannedAccessorKey →
    Except NomErr (LSpan × List SpannedAccessorKey)
  | 0, input, keys => .ok (input, keys)
  | fuel + 1, input, keys =>
    match take_spanned_keyF (fuel + 1) input with
    | .ok (next, key) => take_keys_loopF fuel next (keys ++ [key])
    | .error (.failure e) => .error (.failure e)
    | .error (.error _) => .ok (input, keys)

def take_spanned_accessorF (fuel : Nat) (input : LSpan) : PResult SpannedAccessor :=
  match tagP ['$', lbrace] input with
  | .error _ =>
    .error (.failure ⟨.InvalidAccessorKey, ⟨input.col, input.col + 1⟩⟩)
  | .ok (input1, opening) =>
    match take_string_with_escape_untilF fuel is_separator RESERVED_TOKEN input1 with
    | .error e => .error e
    | .ok (rest, rootTxt) =>
      let root : SpannedAccessorKey :=
        ⟨.String rootTxt, ⟨input1.col, input1.col + (input1.rest.length - rest.rest.length)⟩⟩
      match take_keys_loopF fuel rest [root] with
      | .error e => .error e
      | .ok (input2, keys) =>
        match tagP [rbrace] input2 with
        | .error _ =>
          .error (.failure ⟨.MissingClosingBracket, ⟨opening.col, opening.col + 2⟩⟩)
        | .ok (input3, _) =>
          .ok (input3, ⟨keys, ⟨opening.col, input3.col⟩⟩)

def take_interp_loopF : Nat → LSpan → List SpannedInterpolatorSegment →
    Except NomErr SpannedStringInterpolator
  | 0, _, segments => .ok ⟨segments, []⟩
  | fuel + 1, input, segments =>
    match take_string_with_escape_untilF (fuel + 1) (fun c => c = '$') ['$'] input with
    | .error e => .error e
    | .ok (rest, prefixTxt) =>
      if rest.rest.isEmpty then
        .ok ⟨segments, prefixTxt⟩
      else
        match take_spanned_accessorF (fuel + 1) rest with
        | .error e => .error e
        | .ok (rest2, accessor) =>
          take_interp_loopF fuel rest2 (segments ++ [⟨prefixTxt, accessor⟩])

def take_spanned_string_interpolatorF (fuel : Nat) (input : LSpan) :
    Except NomErr SpannedStringInterpolator :=
  take_interp_loopF fuel input []

/-! ### The fuelled versions agree with the parsers for sufficient fuel -/

lemma take_string_loopF_eq (cond : Char → Bool) (reserved : Str) :
    ∀ (fuel : Nat) (input : LSpan) (buf : Str),
      input.rest.length ≤ fuel →
      take_string_loopF cond reserved fuel input buf
        = take_string_loop cond reserved input buf := by
  intro fuel
  induction fuel with
  | zero =>
    intro input buf hle
    rw [take_string_loop, take_string_loopF]
    cases hrest : input.rest with
    | nil => rfl
    | cons c cs =>
      rw [hrest] at hle
      simp at hle
  | succ fuel ih =>
    intro input buf hle
    rw [take_string_loop, take_string_loopF]
    cases hrest : input.rest with
    | nil => rfl
    | cons c cs =>
      by_cases hc : cond c = true
      · simp [hc]
      · simp only [if_neg hc]
        cases halt : altP (take_escaped_char reserved) (take_char reserved) input with
        | error e => rfl
        | ok p =>
          obtain ⟨next, ch⟩ := p
          have hadv := scanAlt_advances halt
          have hlen : input.rest.length ≤ fuel + 1 := hle
          exact ih next (buf ++ [ch]) (by omega)

lemma take_string_with_escape_untilF_eq {fuel : Nat} {input : LSpan}
    (h : input.rest.length ≤ fuel) (cond : Char → Bool) (reserved : Str) :
    take_string_with_escape_untilF fuel cond reserved input
      = take_string_with_escape_until cond reserved input :=
  take_string_loopF_eq cond reserved fuel input [] h

lemma find_next_separatorF_eq {fuel : Nat} {input : LSpan}
    (h : input.rest.length ≤ fuel) :
    find_next_separatorF fuel input = find_next_separator input := by
  unfold find_next_separatorF find_next_separator
  rw [take_string_with_escape_untilF_eq h]

lemma take_string_keyF_eq {fuel : Nat} {input : LSpan}
    (h : input.rest.length ≤ fuel) :
    take_string_keyF fuel input = take_string_key input := by
  unfold take_string_keyF take_string_key
  cases htag : tagP ['.'] input with
  | error e => rw [find_next_separatorF_eq h]
  | ok p =>
    obtain ⟨input1, tk⟩ := p
    dsimp only
    have h1 : input1.rest.length ≤ fuel := by
      have := (tagP_length htag).1
      omega
    by_cases hq : input1.rest.head? = some '\"'
    · simp only [if_pos hq]
      cases htag2 : tagP ['\"'] input1 with
      | error e => rfl
      | ok p2 =>
        obtain ⟨input2, tk2⟩ := p2
        dsimp only
        have h2 : input2.rest.length ≤ fuel := by
          have := (tagP_length htag2).1
          omega
        rw [take_string_with_escape_untilF_eq h2]
    · simp only [if_neg hq]
      rw [take_string_with_escape_untilF_eq h1]

lemma take_numeric_keyF_eq {fuel : Nat} {input : LSpan}
    (h : input.rest.length ≤ fuel) :
    take_numeric_keyF fuel input = take_numeric_key input := by
  unfold take_numeric_keyF take_numeric_key
  cases htag : tagP ['['] input with
  | error e => rw [find_next_separatorF_eq h]
  | ok p => rfl

lemma take_keyF_eq {fuel : Nat} {input : LSpan}
    (h : input.rest.length ≤ fuel) :
    take_keyF fuel input = take_key input := by
  unfold take_keyF take_key altP
  rw [take_string_keyF_eq h, take_numeric_keyF_eq h]

lemma take_spanned_keyF_eq {fuel : Nat} {input : LSpan}
    (h : input.rest.length ≤ fuel) :
    take_spanned_keyF fuel input = take_spanned_key input := by
  unfold take_spanned_keyF take_spanned_key
  rw [take_keyF_eq h]

lemma take_spanned_key_on_empty {input : LSpan} (hrest : input.rest = []) :
    take_spanned_key input
      = .error (.error ⟨.InvalidAccessorKey, ⟨input.col, 0⟩⟩) := by
  simp [take_spanned_key, take_key, altP, take_string_key, take_numeric_key,
    tagP, hrest, List.isPrefixOf, unknownErr, find_next_separator,
    take_string_with_escape_until, take_string_loop]

lemma take_keys_loopF_eq :
    ∀ (fuel : Nat) (input : LSpan) (keys : List SpannedAccessorKey),
      input.rest.length ≤ fuel →
      take_keys_loopF fuel input keys = take_keys_loop input keys := by
  intro fuel
  induction fuel with
  | zero =>
    intro input keys hle
    have hrest : input.rest = [] := List.eq_nil_of_length_eq_zero (Nat.le_zero.mp hle)
    rw [take_keys_loop, take_keys_loopF, take_spanned_key_on_empty hrest]
  | succ fuel ih =>
    intro input keys hle
    rw [take_keys_loop, take_keys_loopF, take_spanned_keyF_eq hle]
    cases hk : take_spanned_key input with
    | ok p =>
      obtain ⟨next, key⟩ := p
      have hadv := take_spanned_key_advances hk
      exact ih next (keys ++ [key]) (by omega)
    | error e => cases e <;> rfl

lemma take_spanned_accessorF_eq {fuel : Nat} {input : LSpan}
    (h : input.rest.length ≤ fuel) :
    take_spanned_accessorF fuel input = take_spanned_accessor input := by
  unfold take_spanned_accessorF take_spanned_accessor
  cases htag : tagP ['$', lbrace] input with
  | error e => rfl
  | ok p =>
    obtain ⟨input1, opening⟩ := p
    dsimp only
    have h1 : input1.rest.length ≤ fuel := by
      have := (tagP_length htag).1
      omega
    rw [take_string_with_escape_untilF_eq h1]
    cases hscan : take_string_with_escape_until is_separator RESERVED_TOKEN input1 with
    | error e => rfl
    | ok p2 =>
      obtain ⟨rest, rootTxt⟩ := p2
      dsimp only
      have h2 : rest.rest.length ≤ fuel := by
        have := take_string_with_escape_until_mono hscan
        omega
      simp only [take_keys_loopF_eq fuel rest _ h2]

lemma take_interp_loopF_eq :
    ∀ (fuel : Nat) (input : LSpan) (segments : List SpannedInterpolatorSegment),
      input.rest.length ≤ fuel →
      take_interp_loopF fuel input segments = take_interp_loop input segments := by
  intro fuel
  induction fuel with
  | zero =>
    intro input segments hle
    have hrest : input.rest = [] := List.eq_nil_of_length_eq_zero (Nat.le_zero.mp hle)
    have hscan : take_string_with_escape_until (fun c => c = '$') ['$'] input
        = .ok (input, []) := by
      unfold take_string_with_escape_until
      rw [take_string_loop, hrest]
    rw [take_interp_loop, take_interp_loopF, hscan]
    simp [hrest]
  | succ fuel ih =>
    intro input segments hle
    rw [take_interp_loop, take_interp_loopF, take_string_with_escape_untilF_eq hle]
    cases hscan : take_string_with_escape_until (fun c => c = '$') ['$'] input with
    | error e => rfl
    | ok p =>
      obtain ⟨rest, prefixTxt⟩ := p
      have hmono := take_string_with_escape_until_mono hscan
      by_cases hemp : rest.rest.isEmpty = true
      · simp [hemp]
      · simp only [if_neg hemp]
        rw [take_spanned_accessorF_eq (show rest.rest.length ≤ fuel + 1 by omega)]
        cases hacc : take_spanned_accessor rest with
        | error e => rfl
        | ok p2 =>
          obtain ⟨rest2, accessor⟩ := p2
          have hadv := take_spanned_accessor_advances hacc
          exact ih rest2 _ (by omega)

lemma take_spanned_accessor_evalF (input : LSpan) :
    take_spanned_accessor input = take_spanned_accessorF input.rest.length input :=
  (take_spanned_accessorF_eq le_rfl).symm

lemma take_spanned_string_interpolator_evalF (input : LSpan) :
    take_spanned_string_interpolator input
      = take_spanned_string_interpolatorF input.rest.length input :=
  (take_interp_loopF_eq input.rest.length input [] le_rfl).symm

/-! ## `edit_distance` (validation.rs)

The Rust function works on `u32` distances, so every arithmetic step that can
wrap is reduced modulo `2^32` (`U32`).  The strings are re-ordered so that the
one with the smaller *byte* length indexes the single rolling row. -/

/-- `2^32`: the modulus of Rust `u32` arithmetic. -/
def U32 : Nat := 4294967296

/-- `DistanceMapEntry` from validation.rs. -/
structure DistanceMapEntry where
  distance : Nat
  character : Char
deriving DecidableEq, Repr

/-- The initial row pushed by `edit_distance`: entry `idx+1` carries
`(idx + 1) as u32` and the `idx`-th character of `s1`. -/
def initAux : Nat → Str → List DistanceMapEntry
  | _, [] => []
  | idx, ch :: rest => ⟨(idx + 1) % U32, ch⟩ :: initAux (idx + 1) rest

/-- The full initial `table_buffer`: a `0`/NUL sentinel followed by one entry
per character of `s1`. -/
def initBuffer (s1 : Str) : List DistanceMapEntry :=
  ⟨0, Char.ofNat 0⟩ :: initAux 0 s1

/-- One pass of the inner `for idx in 1..len` loop of `edit_distance`,
started with `prev` = the new value at the previous column and `diag` = the
old value at the previous column; produces the new values of columns
`idx, idx+1, ...` (the last produced value is the flushed final cell). -/
def rowAux (ch2 : Char) : Nat → Nat → List DistanceMapEntry → List Nat
  | _, _, [] => []
  | prev, diag, e :: rest =>
    let m := Nat.min prev (Nat.min e.distance diag)
    let this := if ch2 ≠ e.character then (m + 1) % U32 else m
    this :: rowAux ch2 this e.distance rest

/-- One iteration of the outer `for (start_distance, ch2) in s2` loop: the
buffer is replaced by the new row's distances (characters unchanged). -/
def runRow (ch2 : Char) (firstDist : Nat) (buf : List DistanceMapEntry) :
    List DistanceMapEntry :=
  match buf with
  | [] => []
  | e0 :: rest =>
    List.zipWith (fun d (e : DistanceMapEntry) => ⟨d, e.character⟩)
      (firstDist :: rowAux ch2 firstDist e0.distance rest) (e0 :: rest)

/-- The outer loop over the characters of `s2` (`start_distance` is the
enumeration index; `start_distance as u32 + 1` starts each row). -/
def rowsLoop : Nat → Str → List DistanceMapEntry → List DistanceMapEntry
  | _, [], buf => buf
  | sd, ch2 :: rest, buf => rowsLoop (sd + 1) rest (runRow ch2 ((sd % U32 + 1) % U32) buf)

/-- `edit_distance` from validation.rs (after the byte-length swap, on the
ordered pair). -/
def edit_core (s1 s2 : Str) : Nat :=
  (((rowsLoop 0 s2 (initBuffer s1)).getLast?).map DistanceMapEntry.distance).getD 0

/-- `edit_distance` from validation.rs. -/
def edit_distance (s1 s2 : Str) : Nat :=
  let p := if utf8Len s1 < utf8Len s2 then (s1, s2) else (s2, s1)
  edit_core p.1 p.2

/-! ## Path schema validation (`validation.rs`) -/

/-- `PathNode` from validation.rs.  The `HashMap<String, PathNode>` of
children is modelled as an association list with pairwise distinct keys;
`children.get` is the first association and `children.keys()` iterates in
list order (the iteration order only feeds a sort on (distance, key) pairs,
which is order-independent for distinct keys). -/
inductive PathNode where
  | Node (children : List (Str × PathNode))
  | Root
  | ObjectRoot
  | KnownField

/-- `AccessorValidationErrorKind` (error type used by validation.rs). -/
inductive AccessorValidationErrorKind where
  | NotStringRepresentable
  | NumericIndexInMap
  | NotIndexable
  | UnknownKey (possible_keys : List Str)
deriving DecidableEq, Repr

/-- `AccessorValidationError`. -/
structure AccessorValidationError where
  kind : AccessorValidationErrorKind
  span : AccessorParserSpan
deriving DecidableEq, Repr

/-- `HashMap::get`. -/
def assocGet (children : List (Str × PathNode)) (k : Str) : Option PathNode :=
  (children.find? (fun p => p.1 = k)).map (fun p => p.2)

/-- Rust `String` ordering: byte-wise lexicographic, which on UTF-8 data
coincides with code-point lexicographic order. -/
def strLtB : Str → Str → Bool
  | [], [] => false
  | [], _ :: _ => true
  | _ :: _, [] => false
  | a :: as_, b :: bs => a < b || (a = b && strLtB as_ bs)

/-- The `Ord` instance of `(u32, String)` used by `Vec::sort`, as a `≤`
test. -/
def pairLe (x y : Nat × Str) : Bool :=
  x.1 < y.1 || (x.1 = y.1 && !strLtB y.2 x.2)

/-- Stable insertion into a sorted list (model of `Vec::sort`, which is a
stable sort; on the pairwise-distinct `(distance, key)` pairs produced here
every stable sort yields the same list). -/
def insertPair (x : Nat × Str) : List (Nat × Str) → List (Nat × Str)
  | [] => [x]
  | y :: ys => if pairLe x y then x :: y :: ys else y :: insertPair x ys

/-- `Vec::sort` on `(u32, String)` pairs. -/
def sortPairs (l : List (Nat × Str)) : List (Nat × Str) :=
  l.foldr insertPair []

/-- `path_contains` from validation.rs. -/
def path_contains (node : PathNode) (accessor_span : AccessorParserSpan)
    (remaining_keys : List SpannedAccessorKey) (is_interpolator : Bool) :
    Except AccessorValidationError Unit :=
  match node, remaining_keys with
  | .Root, _ => .ok ()
  | .ObjectRoot, remaining =>
    if remaining.isEmpty && is_interpolator then
      .error ⟨.NotStringRepresentable, accessor_span⟩
    else
      match remaining with
      | [] => .ok ()
      | ⟨.String _, _⟩ :: _ => .ok ()
      | ⟨_, span⟩ :: _ => .error ⟨.NumericIndexInMap, span⟩
  | .KnownField, [] => .ok ()
  | .KnownField, ⟨_, span⟩ :: _ => .error ⟨.NotIndexable, span⟩
  | .Node _, [] =>
    if !is_interpolator then .ok ()
    else .error ⟨.NotStringRepresentable, accessor_span⟩
  | .Node _, ⟨.Numeric _, span⟩ :: _ => .error ⟨.NumericIndexInMap, span⟩
  | .Node children, ⟨.String key, span⟩ :: rest =>
    match assocGet children key with
    | some child => path_contains child accessor_span rest is_interpolator
    | none =>
      let pairs := children.map (fun p => (edit_distance p.1 key, p.1))
      let sorted := (sortPairs pairs).map (fun p => p.2)
      .error ⟨.UnknownKey sorted, span⟩

/-- `PathNode::validate` from validation.rs. -/
def PathNode.validate (self : PathNode) (accessor : SpannedAccessor)
    (is_interpolator : Bool) : Except AccessorValidationError Unit :=
  path_contains self accessor.span accessor.keys is_interpolator

/-- `PathNode::validate_accessor` from validation.rs. -/
def PathNode.validate_accessor (self : PathNode) (accessor : SpannedAccessor) :
    Except AccessorValidationError Unit :=
  self.validate accessor false

/-- `PathNode::validate_interpolator` from validation.rs: collect the error
of every failing segment (in segment order) and succeed only if none fails. -/
def PathNode.validate_interpolator (self : PathNode)
    (interpolator : SpannedStringInterpolator) :
    Except (List AccessorValidationError) Unit :=
  let errors := interpolator.segments.foldl
    (fun errs segment =>
      match self.validate segment.accessor true with
      | .ok _ => errs
      | .error err => errs ++ [err])
    []
  if errors.isEmpty then .ok () else .error errors

/-! ## The dynamic-programming matrix behind `edit_core`

`M c1 c2 j i` is the value the Rust rolling row holds for row `j` (characters
of `s2` processed) and column `i` (characters of `s1`), with the same `u32`
wrap-arounds.  Note the recurrence adds the mismatch cost on top of the
minimum of all three neighbours (including the ones reached by
insertion/deletion), which is why it is not the Levenshtein recurrence. -/

def M (c1 c2 : Str) : Nat → Nat → Nat
  | 0, i => i % U32
  | j + 1, 0 => (j % U32 + 1) % U32
  | j + 1, i + 1 =>
    if c2.getD j (Char.ofNat 0) ≠ c1.getD i (Char.ofNat 0) then
      (Nat.min (M c1 c2 (j + 1) i) (Nat.min (M c1 c2 j (i + 1)) (M c1 c2 j i)) + 1) % U32
    else
      Nat.min (M c1 c2 (j + 1) i) (Nat.min (M c1 c2 j (i + 1)) (M c1 c2 j i))
termination_by j i => (j, i)

/-- The model of the buffer entries at positions `i+1, i+2, ...` for row `j`:
distances from `M`, characters from the corresponding suffix of `c1`. -/
def entriesFrom (c1 c2 : Str) (j : Nat) : Nat → Str → List DistanceMapEntry
  | _, [] => []
  | i, c :: cs => ⟨M c1 c2 j (i + 1), c⟩ :: entriesFrom c1 c2 j (i + 1) cs

/-- The whole buffer model for row `j`. -/
def rowModel (c1 c2 : Str) (j : Nat) : List DistanceMapEntry :=
  ⟨M c1 c2 j 0, Char.ofNat 0⟩ :: entriesFrom c1 c2 j 0 c1

/-- Distances of `entriesFrom`. -/
def valuesFrom (c1 c2 : Str) (j : Nat) : Nat → Str → List Nat
  | _, [] => []
  | i, _ :: cs => M c1 c2 j (i + 1) :: valuesFrom c1 c2 j (i + 1) cs

lemma initAux_eq_entriesFrom (c1 c2 : Str) :
    ∀ (cs : Str) (i : Nat), initAux i cs = entriesFrom c1 c2 0 i cs := by
  intro cs
  induction cs with
  | nil => intro i; rfl
  | cons c cs ih =>
    intro i
    show (⟨(i + 1) % U32, c⟩ : DistanceMapEntry) :: initAux (i + 1) cs =
      ⟨M c1 c2 0 (i + 1), c⟩ :: entriesFrom c1 c2 0 (i + 1) cs
    rw [ih (i + 1), M]

lemma initBuffer_eq_rowModel (c1 c2 : Str) : initBuffer c1 = rowModel c1 c2 0 := by
  unfold initBuffer rowModel
  rw [initAux_eq_entriesFrom c1 c2, M, Nat.zero_mod]

lemma getD_of_drop_eq_cons {c1 cs : Str} {c : Char} {i : Nat}
    (hdrop : c :: cs = c1.drop i) : c1.getD i (Char.ofNat 0) = c := by
  have h0 : c1[i]? = some c := by
    have hd := List.getElem?_drop c1 i 0
    rw [← hdrop] at hd
    simpa using hd.symm
  simp [List.getD_eq_getElem?_getD, h0]

lemma drop_succ_of_drop_eq_cons {c1 cs : Str} {c : Char} {i : Nat}
    (hdrop : c :: cs = c1.drop i) : cs = c1.drop (i + 1) := by
  have : c1.drop (i + 1) = (c1.drop i).drop 1 := by
    rw [List.drop_drop]
  rw [this, ← hdrop]
  rfl

lemma rowAux_eq_valuesFrom (c1 c2 : Str) (j : Nat) :
    ∀ (cs : Str) (i : Nat), cs = c1.drop i →
      rowAux (c2.getD j (Char.ofNat 0)) (M c1 c2 (j + 1) i) (M c1 c2 j i)
          (entriesFrom c1 c2 j i cs)
        = valuesFrom c1 c2 (j + 1) i cs := by
  intro cs
  induction cs with
  | nil => intro i _; rfl
  | cons c cs ih =>
    intro i hdrop
    have hc : c1.getD i (Char.ofNat 0) = c := getD_of_drop_eq_cons hdrop
    rw [entriesFrom, rowAux, valuesFrom]
    have hM : M c1 c2 (j + 1) (i + 1) =
        (if c2.getD j (Char.ofNat 0) ≠ c1.getD i (Char.ofNat 0) then
          (Nat.min (M c1 c2 (j + 1) i)
            (Nat.min (M c1 c2 j (i + 1)) (M c1 c2 j i)) + 1) % U32
        else
          Nat.min (M c1 c2 (j + 1) i)
            (Nat.min (M c1 c2 j (i + 1)) (M c1 c2 j i))) := by
      rw [M]
    rw [hc] at hM
    simp only
    rw [← hM]
    rw [ih (i + 1) (drop_succ_of_drop_eq_cons hdrop)]

lemma zip_values_entries (c1 c2 : Str) (j : Nat) :
    ∀ (cs : Str) (i : Nat),
      List.zipWith (fun d (e : DistanceMapEntry) => (⟨d, e.character⟩ : DistanceMapEntry))
          (valuesFrom c1 c2 (j + 1) i cs) (entriesFrom c1 c2 j i cs)
        = entriesFrom c1 c2 (j + 1) i cs := by
  intro cs
  induction cs with
  | nil => intro i; rfl
  | cons c cs ih =>
    intro i
    rw [valuesFrom, entriesFrom, entriesFrom, List.zipWith_cons_cons, ih (i + 1)]

lemma runRow_rowModel (c1 c2 : Str) (j : Nat) :
    runRow (c2.getD j (Char.ofNat 0)) (M c1 c2 (j + 1) 0) (rowModel c1 c2 j)
      = rowModel c1 c2 (j + 1) := by
  unfold rowModel
  rw [runRow]
  rw [rowAux_eq_valuesFrom c1 c2 j c1 0 (by simp)]
  rw [List.zipWith_cons_cons, zip_values_entries]

lemma rowsLoop_rowModel (c1 c2 : Str) :
    ∀ (cs : Str) (sd : Nat), cs = c2.drop sd →
      rowsLoop sd cs (rowModel c1 c2 sd) = rowModel c1 c2 (sd + cs.length) := by
  intro cs
  induction cs with
  | nil => intro sd _; simp [rowsLoop]
  | cons ch cs ih =>
    intro sd hdrop
    have hch : c2.getD sd (Char.ofNat 0) = ch := getD_of_drop_eq_cons hdrop
    have hM0 : ((sd % U32 + 1) % U32) = M c1 c2 (sd + 1) 0 := by rw [M]
    rw [rowsLoop, hM0, ← hch, runRow_rowModel c1 c2 sd,
      ih (sd + 1) (drop_succ_of_drop_eq_cons hdrop)]
    congr 1
    simp [List.length_cons]
    omega

lemma entriesFrom_lastDist (c1 c2 : Str) (j : Nat) :
    ∀ (cs : Str) (i : Nat) (e0 : DistanceMapEntry), e0.distance = M c1 c2 j i →
      (((e0 :: entriesFrom c1 c2 j i cs).getLast?).map DistanceMapEntry.distance).getD 0
        = M c1 c2 j (i + cs.length) := by
  intro cs
  induction cs with
  | nil => intro i e0 h0; simp [entriesFrom, h0]
  | cons c cs ih =>
    intro i e0 _
    rw [entriesFrom, List.getLast?_cons_cons]
    have := ih (i + 1) ⟨M c1 c2 j (i + 1), c⟩ rfl
    rw [this]
    congr 1
    simp [List.length_cons]
    omega

lemma edit_core_eq_M (c1 c2 : Str) :
    edit_core c1 c2 = M c1 c2 c2.length c1.length := by
  unfold edit_core
  rw [initBuffer_eq_rowModel c1 c2, rowsLoop_rowModel c1 c2 c2 0 (by simp)]
  unfold rowModel
  rw [entriesFrom_lastDist c1 c2 (0 + c2.length) c1 0 ⟨M c1 c2 (0 + c2.length) 0, Char.ofNat 0⟩ rfl]
  congr 1 <;> omega

/-- The cell recurrence of `M` is symmetric in its two string/index pairs,
so the whole table is (wrap-arounds included). -/
lemma M_symm (c1 c2 : Str) : ∀ (j i : Nat), M c1 c2 j i = M c2 c1 i j := by
  intro j
  induction j with
  | zero =>
    intro i
    cases i with
    | zero => rw [M, M]
    | succ k =>
      rw [M, M]
      conv_lhs => rw [Nat.add_mod]
      norm_num [U32]
  | succ j ihj =>
    intro i
    induction i with
    | zero =>
      rw [M, M]
      conv_rhs => rw [Nat.add_mod]
      norm_num [U32]
    | succ i ihi =>
      rw [M, M]
      have e1 : M c1 c2 (j + 1) i = M c2 c1 i (j + 1) := ihi
      have e2 : M c1 c2 j (i + 1) = M c2 c1 (i + 1) j := ihj (i + 1)
      have e3 : M c1 c2 j i = M c2 c1 i j := ihj i
      have hmin : Nat.min (M c1 c2 (j + 1) i)
            (Nat.min (M c1 c2 j (i + 1)) (M c1 c2 j i))
          = Nat.min (M c2 c1 (i + 1) j)
            (Nat.min (M c2 c1 i (j + 1)) (M c2 c1 i j)) := by
        rw [e1, e2, e3]
        show min _ (min _ _) = min _ (min _ _)
        exact min_left_comm _ _ _
      by_cases hch : List.getD c2 j (Char.ofNat 0) = List.getD c1 i (Char.ofNat 0)
      · rw [if_neg (by simpa using hch), if_neg (by simpa using hch.symm), hmin]
      · rw [if_pos hch, if_pos (Ne.symm hch), hmin]

/-- On the diagonal with equal strings every cell of `M` is `0` (matching
characters propagate the zero for free). -/
lemma M_diag_zero (c : Str) : ∀ (k : Nat), M c c k k = 0 := by
  intro k
  induction k with
  | zero => rw [M]; exact Nat.zero_mod _
  | succ k ih =>
    rw [M]
    rw [if_neg (by simp)]
    rw [ih]
    show min _ (min _ 0) = 0
    simp

/-! ## Spec-modelled reference: the classic Levenshtein distance

Modelled from the spec: "Edit distance: classic Levenshtein distance between
two key strings".  This is the textbook rolling-row algorithm with the correct
recurrence `D[i][j] = min(D[i-1][j-1] + cost, D[i-1][j] + 1, D[i][j-1] + 1)`;
it is used only to compare the repository's `edit_distance` against what the
spec says it computes. -/

/-- One row continuation of the classic recurrence: `prev` is the new value
in the previous column, `diag`/`up` the old row's values at the previous and
current column. -/
def levRowGo (a : Char) : Nat → Nat → Str → List Nat → List Nat
  | prev, diag, b :: bs, up :: ups =>
    (Nat.min (diag + (if a = b then 0 else 1)) (Nat.min (up + 1) (prev + 1)))
      :: levRowGo a (Nat.min (diag + (if a = b then 0 else 1)) (Nat.min (up + 1) (prev + 1)))
        up bs ups
  | _, _, _, _ => []

/-- A full new row of the classic recurrence (`i1` = the row number). -/
def levRow (a : Char) (i1 : Nat) (t : Str) (old : List Nat) : List Nat :=
  match old with
  | [] => []
  | d :: ups => i1 :: levRowGo a i1 d t ups

/-- Fold the classic recurrence over the rows. -/
def levFold : Str → Str → Nat → List Nat → List Nat
  | [], _, _, row => row
  | a :: as_, t, i, row => levFold as_ t (i + 1) (levRow a (i + 1) t row)

/-- The classic Levenshtein distance. -/
def levenshtein (s t : Str) : Nat :=
  (levFold s t 0 (List.range (t.length + 1))).getLastD 0

/-- Decidable equality for `Except` results (needed to settle concrete
validation runs by `decide`). -/
instance {ε α : Type} [DecidableEq ε] [DecidableEq α] : DecidableEq (Except ε α) := by
  intro x y
  cases x <;> cases y
  case error.error a b =>
    exact if h : a = b then .isTrue (by rw [h]) else .isFalse (by intro hh; cases hh; exact h rfl)
  case error.ok a b => exact .isFalse (by intro hh; cases hh)
  case ok.error a b => exact .isFalse (by intro hh; cases hh)
  case ok.ok a b =>
    exact if h : a = b then .isTrue (by rw [h]) else .isFalse (by intro hh; cases hh; exact h rfl)

/-! ## Shared concrete schema (the `test_path_tree` of validation.rs tests) -/

def sampleTree : PathNode :=
  .Node [("event".toList, .Node [("created_ms".toList, .KnownField),
                                 ("metadata".toList, .ObjectRoot),
                                 ("payload".toList, .ObjectRoot)]),
         ("item".toList, .Root),
         ("_variables".toList, .Node [("target1".toList, .Root),
                                      ("target2".toList, .Root),
                                      ("target3".toList, .KnownField)])]

/-- The parse of the accessor text `${event}` (checked in `c5...`). -/
def eventAcc : SpannedAccessor := ⟨[⟨.String "event".toList, ⟨2, 7⟩⟩], ⟨0, 8⟩⟩

/-- The input text `${event}`. -/
def eventInput : Str := ['$', lbrace] ++ "event".toList ++ [rbrace]

/-! ## Claim theorems -/

/-- C1: the claim states that `edit_distance` returns the classic Levenshtein
distance for every pair of strings.  It does not: on the pair `("a", "aa")`
the function returns `0` while the Levenshtein distance is `1` (the flawed
recurrence adds the substitution cost to the minimum over all three
neighbours, so a matching character makes insertions/deletions free).  The
spec's concrete example `edit_distance("kitten", "sitting") = 3` does hold. -/
theorem c1_edit_distance_not_levenshtein_at_a_aa :
    edit_distance ['a'] ['a', 'a'] = 0 ∧
    levenshtein ['a'] ['a', 'a'] = 1 ∧
    edit_distance "kitten".toList "sitting".toList = 3 ∧
    levenshtein "kitten".toList "sitting".toList = 3 := by
  decide

/-- C9: `edit_distance` is symmetric and evaluates to `0` on every pair of
equal strings (these two properties survive the flawed recurrence: the
byte-length swap plus the transpose symmetry of the cell recurrence give
symmetry, and matching characters propagate `0` along the diagonal). -/
theorem c9_edit_distance_symmetric_and_self_zero :
    (∀ a b : Str, edit_distance a b = edit_distance b a) ∧
    (∀ s : Str, edit_distance s s = 0) := by
  constructor
  · intro a b
    have hcore : edit_core a b = edit_core b a := by
      rw [edit_core_eq_M, edit_core_eq_M, M_symm]
    unfold edit_distance
    by_cases h1 : utf8Len a < utf8Len b <;> by_cases h2 : utf8Len b < utf8Len a <;>
      simp [h1, h2, hcore]
  · intro s
    have hcore : edit_core s s = 0 := by
      rw [edit_core_eq_M, M_diag_zero]
    unfold edit_distance
    simp [hcore]

/-- C4: the claim states that the `UnknownKey` suggestion list is sorted
ascending by edit distance (which the spec defines as the classic Levenshtein
distance).  The list does contain every sibling key, but it is sorted by the
flawed `edit_distance`: for children `{aaa, ab}` and attempted key `a` the
code produces `[aaa, ab]` (its own distances `0, 1`), while the Levenshtein
distances are `2, 1` — not ascending.  The spec's concrete example (a lone
child `created_ms` suggested for `${event.unknown}`) does hold. -/
theorem c4_unknown_key_suggestions_not_levenshtein_sorted :
    path_contains (.Node [("x".toList,
        .Node [("aaa".toList, .KnownField), ("ab".toList, .KnownField)])])
        ⟨0, 6⟩ [⟨.String "x".toList, ⟨2, 3⟩⟩, ⟨.String "a".toList, ⟨3, 5⟩⟩] false
      = .error ⟨.UnknownKey ["aaa".toList, "ab".toList], ⟨3, 5⟩⟩ ∧
    edit_distance "aaa".toList "a".toList = 0 ∧
    edit_distance "ab".toList "a".toList = 1 ∧
    levenshtein "aaa".toList "a".toList = 2 ∧
    levenshtein "ab".toList "a".toList = 1 ∧
    path_contains (.Node [("event".toList, .Node [("created_ms".toList, .KnownField)])])
        ⟨0, 16⟩ [⟨.String "event".toList, ⟨2, 7⟩⟩, ⟨.String "unknown".toList, ⟨7, 15⟩⟩] false
      = .error ⟨.UnknownKey ["created_ms".toList], ⟨7, 15⟩⟩ := by
  decide

/-- C5: an accessor whose key list is exhausted at a `Node` validates in
standalone mode and fails with `NotStringRepresentable` spanning the whole
accessor in interpolation mode; concretely, `${event}` (a `Node` in the
sample schema) validates standalone and fails inside an interpolation. -/
theorem c5_exhausted_node_ok_standalone_not_representable_interpolation :
    (∀ (children : List (Str × PathNode)) (sp : AccessorParserSpan),
      path_contains (.Node children) sp [] false = .ok () ∧
      path_contains (.Node children) sp [] true =
        .error ⟨.NotStringRepresentable, sp⟩) ∧
    (take_spanned_string_interpolator (LSpan.ofInput eventInput) =
        .ok ⟨[⟨[], eventAcc⟩], []⟩ ∧
      sampleTree.validate_accessor eventAcc = .ok () ∧
      sampleTree.validate_interpolator ⟨[⟨[], eventAcc⟩], []⟩ =
        .error [⟨.NotStringRepresentable, ⟨0, 8⟩⟩]) := by
  refine ⟨fun children sp => ⟨rfl, rfl⟩, ?_, by decide, by decide⟩
  rw [take_spanned_string_interpolator_evalF]
  decide

/-- The accumulating loop of `validate_interpolator` collects exactly the
errors of the failing segments, in segment order. -/
lemma validate_interp_foldl (schema : PathNode) :
    ∀ (segs : List SpannedInterpolatorSegment) (acc : List AccessorValidationError),
      segs.foldl
        (fun errs segment =>
          match schema.validate segment.accessor true with
          | .ok _ => errs
          | .error err => errs ++ [err]) acc
      = acc ++ segs.filterMap (fun segment =>
          match schema.validate segment.accessor true with
          | .ok _ => none
          | .error err => some err) := by
  intro segs
  induction segs with
  | nil => intro acc; simp
  | cons s ss ih =>
    intro acc
    rw [List.foldl_cons, List.filterMap_cons]
    cases h : schema.validate s.accessor true with
    | ok u => simp only [h, ih]
    | error e => simp only [h, ih, List.append_assoc, List.singleton_append]

/-- `validate_interpolator` as a whole: success exactly when no segment
fails, otherwise the ordered list of all per-segment errors. -/
lemma validate_interpolator_eq_filterMap (schema : PathNode)
    (itp : SpannedStringInterpolator) :
    PathNode.validate_interpolator schema itp =
      (if (itp.segments.filterMap (fun segment =>
            match PathNode.validate schema segment.accessor true with
            | .ok _ => none
            | .error err => some err)).isEmpty
       then .ok ()
       else .error (itp.segments.filterMap (fun segment =>
            match PathNode.validate schema segment.accessor true with
            | .ok _ => none
            | .error err => some err))) := by
  unfold PathNode.validate_interpolator
  rw [validate_interp_foldl schema itp.segments []]
  simp only [List.nil_append]

/-- C6: interpolator validation is exhaustive — it validates every segment
in interpolation mode, succeeds iff all segments validate, and otherwise
returns one error per failing segment in segment order; standalone accessor
validation returns (only) the first mismatch, shown on a two-bad-key
accessor. -/
theorem c6_interpolator_validation_exhaustive_per_segment :
    (∀ (schema : PathNode) (itp : SpannedStringInterpolator),
      PathNode.validate_interpolator schema itp =
        (if (itp.segments.filterMap (fun segment =>
              match PathNode.validate schema segment.accessor true with
              | .ok _ => none
              | .error err => some err)).isEmpty
         then .ok ()
         else .error (itp.segments.filterMap (fun segment =>
              match PathNode.validate schema segment.accessor true with
              | .ok _ => none
              | .error err => some err)))) ∧
    (∀ (schema : PathNode) (itp : SpannedStringInterpolator),
      PathNode.validate_interpolator schema itp = .ok () ↔
        ∀ segment ∈ itp.segments,
          PathNode.validate schema segment.accessor true = .ok ()) ∧
    (sampleTree.validate_interpolator
        ⟨[⟨[], ⟨[⟨.String "pippo".toList, ⟨2, 7⟩⟩], ⟨0, 8⟩⟩⟩,
          ⟨[], ⟨[⟨.Numeric 0, ⟨2, 3⟩⟩], ⟨0, 4⟩⟩⟩], []⟩ =
      .error [⟨.UnknownKey ["item".toList, "event".toList, "_variables".toList], ⟨2, 7⟩⟩,
              ⟨.NumericIndexInMap, ⟨2, 3⟩⟩]) ∧
    (sampleTree.validate_accessor
        ⟨[⟨.String "pippo".toList, ⟨2, 7⟩⟩, ⟨.String "x".toList, ⟨7, 9⟩⟩], ⟨0, 10⟩⟩ =
      .error ⟨.UnknownKey ["item".toList, "event".toList, "_variables".toList], ⟨2, 7⟩⟩) := by
  refine ⟨validate_interpolator_eq_filterMap, ?_, by decide, by decide⟩
  intro schema itp
  rw [validate_interpolator_eq_filterMap]
  have hper : ∀ segment : SpannedInterpolatorSegment,
      (match PathNode.validate schema segment.accessor true with
       | .ok _ => none
       | .error err => some err) = none ↔
      PathNode.validate schema segment.accessor true = .ok () := by
    intro segment
    cases h : PathNode.validate schema segment.accessor true with
    | ok u => cases u; simp
    | error e => simp
  rcases hL : itp.segments.filterMap (fun segment =>
      match PathNode.validate schema segment.accessor true with
      | .ok _ => none
      | .error err => some err) with _ | ⟨e, es⟩
  · rw [hL, if_pos (by simp)]
    constructor
    · intro _ segment hseg
      exact (hper segment).mp (List.filterMap_eq_nil.mp hL segment hseg)
    · intro _; rfl
  · rw [hL, if_neg (by simp)]
    constructor
    · intro h; cases h
    · intro hall
      have hnil : itp.segments.filterMap (fun segment =>
          match PathNode.validate schema segment.accessor true with
          | .ok _ => none
          | .error err => some err) = [] := by
        apply List.filterMap_eq_nil.mpr
        intro segment hseg
        exact (hper segment).mpr (hall segment hseg)
      rw [hL] at hnil
      cases hnil

/-- The input text `${key1[1234].key2` (no closing brace). -/
def c7input : Str := ['$', lbrace] ++ "key1[1234].key2".toList

/-- The input text `${key1[1234].key2}`. -/
def c8input : Str := ['$', lbrace] ++ "key1[1234].key2".toList ++ [rbrace]

/-- The input text `${}`. -/
def c10input : Str := ['$', lbrace, rbrace]

/-- C7: parsing an accessor whose closing brace is absent after the key loop
stops fails fatally with `MissingClosingBracket` spanning the opening `${`,
i.e. `(0, 2)` on `${key1[1234].key2`. -/
theorem c7_no_closing_brace_fatal_missing_closing_bracket :
    take_spanned_accessor (LSpan.ofInput c7input)
      = .error (.failure ⟨.MissingClosingBracket, ⟨0, 2⟩⟩) := by
  rw [take_spanned_accessor_evalF]
  decide

/-- C8: `${key1[1234].key2}` parses to exactly the keys
`String "key1"`, `Numeric 1234`, `String "key2"` with spans `(2,6)`,
`(6,12)`, `(12,17)` and accessor span `(0,18)`. -/
theorem c8_parse_three_keys_with_spans :
    take_spanned_accessor (LSpan.ofInput c8input)
      = .ok (⟨c8input.reverse, []⟩,
          ⟨[⟨.String "key1".toList, ⟨2, 6⟩⟩,
            ⟨.Numeric 1234, ⟨6, 12⟩⟩,
            ⟨.String "key2".toList, ⟨12, 17⟩⟩], ⟨0, 18⟩⟩) := by
  rw [take_spanned_accessor_evalF]
  decide

/-- C10: `${}` parses successfully to a single key `String ""` with span
`(2,2)` and accessor span `(0,3)` — the empty root key text is accepted. -/
theorem c10_empty_root_key_accepted :
    take_spanned_accessor (LSpan.ofInput c10input)
      = .ok (⟨[rbrace, lbrace, '$'], []⟩,
          ⟨[⟨.String [], ⟨2, 2⟩⟩], ⟨0, 3⟩⟩) := by
  rw [take_spanned_accessor_evalF]
  decide

/-- C3, counterexample: the claim says the `InvalidAccessorKey` produced when
the input does not begin with `${` is a *soft* (recoverable, `nom::Err::Error`)
signal which the interpolator uses to recover.  It is in fact the fatal
`nom::Err::Failure` (modelled by `NomErr.failure`), and the interpolator
propagates it: interpolating `a$b` aborts with that very failure instead of
treating the lone `$` as literal text. -/
theorem c3_counterexample_failure_is_fatal_and_aborts_interpolation :
    take_spanned_accessor (LSpan.ofInput ['a', 'b'])
      = .error (.failure ⟨.InvalidAccessorKey, ⟨0, 1⟩⟩) ∧
    take_spanned_string_interpolator (LSpan.ofInput ['a', '$', 'b'])
      = .error (.failure ⟨.InvalidAccessorKey, ⟨1, 2⟩⟩) := by
  constructor
  · rw [take_spanned_accessor_evalF]
    decide
  · rw [take_spanned_string_interpolator_evalF]
    decide

/-- C3, amended: when the input does not begin with `${`, the parser fails
*fatally* (`nom::Err::Failure`) with `InvalidAccessorKey` spanning one
character at the current position, and the interpolator propagates the
failure (aborting on any unescaped `$` not followed by `{`) rather than
recovering. -/
theorem c3_no_opening_fails_fatally_one_char :
    (∀ input : LSpan, ['$', lbrace].isPrefixOf input.rest = false →
      take_spanned_accessor input
        = .error (.failure ⟨.InvalidAccessorKey, ⟨input.col, input.col + 1⟩⟩)) ∧
    take_spanned_string_interpolator (LSpan.ofInput ['a', '$', 'b'])
      = .error (.failure ⟨.InvalidAccessorKey, ⟨1, 2⟩⟩) := by
  constructor
  · intro input hpre
    simp [take_spanned_accessor, tagP, hpre]
  · rw [take_spanned_string_interpolator_evalF]
    decide

/-- Witness for `c3_no_opening_fails_fatally_one_char` at the concrete
input `ab`. -/
theorem c3_no_opening_fails_fatally_one_char_witness :
    (['$', lbrace].isPrefixOf (LSpan.ofInput ['a', 'b']).rest = false) ∧
    take_spanned_accessor (LSpan.ofInput ['a', 'b'])
      = .error (.failure ⟨.InvalidAccessorKey, ⟨0, 1⟩⟩) :=
  ⟨by decide,
    c3_no_opening_fails_fatally_one_char.1 (LSpan.ofInput ['a', 'b']) (by decide)⟩

/-! ## The accessor grammar (for C2)

Modelled from the spec: `accessor := "${" root key* "}"` with
`root := text-until(separator)`, `key := string-key | numeric-key`,
`string-key := "." ('"' raw-text '"' | text-until(separator))`,
`numeric-key := "[" digits "]"`, where text units are plain characters
(excluding reserved characters) or escapes (`\\`, reserved-character
escapes, `\n`, `\t`, `\r`, `\u{2-8 hex digits encoding a Unicode scalar}`).
Valid accessor strings are the renderings of well-formed `SpecAccessor`
values. -/

/-- One unit of key text: a plain character or one escape sequence. -/
inductive SpecUnit where
  | plain (c : Char)
  | escLit (c : Char)
  | escN
  | escT
  | escR
  | escU (ds : Str)
deriving DecidableEq, Repr

/-- One key of the grammar after the root. -/
inductive SpecKey where
  | strKey (us : List SpecUnit)
  | quotKey (us : List SpecUnit)
  | numKey (ds : Str)
deriving DecidableEq, Repr

/-- A grammatical accessor: root text plus following keys. -/
structure SpecAccessor where
  root : List SpecUnit
  keys : List SpecKey
deriving DecidableEq, Repr

def renderUnit : SpecUnit → Str
  | .plain c => [c]
  | .escLit c => ['\\', c]
  | .escN => ['\\', 'n']
  | .escT => ['\\', 't']
  | .escR => ['\\', 'r']
  | .escU ds => ['\\', 'u', lbrace] ++ ds ++ [rbrace]

def renderText : List SpecUnit → Str
  | [] => []
  | u :: us => renderUnit u ++ renderText us

def renderKey : SpecKey → Str
  | .strKey us => '.' :: renderText us
  | .quotKey us => '.' :: '\"' :: (renderText us ++ ['\"'])
  | .numKey ds => '[' :: (ds ++ [']'])

def renderKeys : List SpecKey → Str
  | [] => []
  | k :: ks => renderKey k ++ renderKeys ks

/-- The text of a grammatical accessor. -/
def render (a : SpecAccessor) : Str :=
  ['$', lbrace] ++ (renderText a.root ++ (renderKeys a.keys ++ [rbrace]))

/-- A hexadecimal digit as accepted by `u32::from_str_radix(_, 16)`. -/
def isHexChar (c : Char) : Bool := (hexDigitVal c).isSome

/-- A decimal digit. -/
def isDecChar (c : Char) : Bool := (decDigitVal c).isSome

/-- The value of a digit run (hexadecimal). -/
def hexVal (ds : Str) : Nat := (parseDigits hexDigitVal 16 ds 0).getD 0

/-- The value of a digit run (decimal). -/
def decVal (ds : Str) : Nat := (parseDigits decDigitVal 10 ds 0).getD 0

/-- Well-formedness of one text unit with respect to the stop condition and
reserved set in force: plain characters are not stopped, not reserved and not
a backslash; literal escapes cover exactly backslash and the reserved
characters; unicode escapes carry 2–8 bytes of hex digits denoting a Unicode
scalar value. -/
def wfUnit (cond : Char → Bool) (reserved : Str) : SpecUnit → Bool
  | .plain c => !(cond c) && !(reserved.contains c) && !(c = '\\')
  | .escLit c => (c = '\\') || reserved.contains c
  | .escN => true
  | .escT => true
  | .escR => true
  | .escU ds =>
    2 ≤ utf8Len ds && utf8Len ds ≤ 8 && ds.all isHexChar &&
      isScalarValue (hexVal ds)

def wfKey : SpecKey → Bool
  | .strKey us => us.all (wfUnit is_separator RESERVED_TOKEN)
  | .quotKey us => us.all (wfUnit (fun c => c = '\"') RESERVED_RAW_LITERAL)
  | .numKey ds => !ds.isEmpty && ds.all isDecChar && decVal ds < 2 ^ 64

/-- A grammatical accessor (the spec's grammar, with the code's numeric
bounds). -/
def wfAccessor (a : SpecAccessor) : Bool :=
  a.root.all (wfUnit is_separator RESERVED_TOKEN) && a.keys.all wfKey

/-! ### Digit and size facts -/

lemma hexDigitVal_lt {c : Char} {d : Nat} (h : hexDigitVal c = some d) : d < 16 := by
  have hv0 : ('0' : Char).toNat = 48 := by decide
  have hva : ('a' : Char).toNat = 97 := by decide
  have hvA : ('A' : Char).toNat = 65 := by decide
  unfold hexDigitVal at h
  split at h
  · rename_i hc
    cases h
    have h9 : c.toNat ≤ 57 := hc.2
    omega
  · split at h
    · rename_i hc
      cases h
      have hf : c.toNat ≤ 102 := hc.2
      have ha : 97 ≤ c.toNat := hc.1
      omega
    · split at h
      · rename_i hc
        cases h
        have hf : c.toNat ≤ 70 := hc.2
        have ha : 65 ≤ c.toNat := hc.1
        omega
      · cases h

lemma decDigitVal_lt {c : Char} {d : Nat} (h : decDigitVal c = some d) : d < 10 := by
  have hv0 : ('0' : Char).toNat = 48 := by decide
  unfold decDigitVal at h
  split at h
  · rename_i hc
    cases h
    have h9 : c.toNat ≤ 57 := hc.2
    omega
  · cases h

lemma parseDigits_lt (digit : Char → Option Nat) (radix : Nat)
    (hb : ∀ c d, digit c = some d → d < radix) :
    ∀ (ds : Str) (acc : Nat), ds.all (fun c => (digit c).isSome) = true →
      ∃ v, parseDigits digit radix ds acc = some v ∧ v < (acc + 1) * radix ^ ds.length := by
  intro ds
  induction ds with
  | nil =>
    intro acc _
    refine ⟨acc, rfl, ?_⟩
    simp
  | cons c cs ih =>
    intro acc hall
    simp only [List.all_cons, Bool.and_eq_true] at hall
    obtain ⟨hd, hcs⟩ := hall
    obtain ⟨d, hdig⟩ := Option.isSome_iff_exists.mp hd
    obtain ⟨v, hv, hlt⟩ := ih (acc * radix + d) hcs
    refine ⟨v, ?_, ?_⟩
    · simp only [parseDigits, hdig, hv]
    · have hdr : d < radix := hb c d hdig
      have hstep : (acc * radix + d + 1) ≤ (acc + 1) * radix := by
        calc acc * radix + d + 1 ≤ acc * radix + radix := by omega
          _ = (acc + 1) * radix := by ring
      calc v < (acc * radix + d + 1) * radix ^ cs.length := hlt
        _ ≤ ((acc + 1) * radix) * radix ^ cs.length :=
          Nat.mul_le_mul_right _ hstep
        _ = (acc + 1) * radix ^ (c :: cs).length := by
          rw [List.length_cons, pow_succ]
          ring

lemma utf8Size_pos (c : Char) : 0 < c.utf8Size := by
  unfold Char.utf8Size
  dsimp only
  split
  · simp
  · split
    · simp
    · split <;> simp

lemma length_le_utf8Len : ∀ s : Str, s.length ≤ utf8Len s := by
  intro s
  induction s with
  | nil => simp [utf8Len]
  | cons c cs ih =>
    have := utf8Size_pos c
    simp only [utf8Len, List.map_cons, List.sum_cons, List.length_cons]
    simp only [utf8Len] at ih
    omega

lemma isHexChar_ne {c : Char} (h : isHexChar c = true) :
    c ≠ rbrace ∧ c ≠ '+' := by
  constructor <;> intro hc <;> subst hc <;> simp [isHexChar] at h <;>
    revert h <;> decide

lemma isDecChar_ne {c : Char} (h : isDecChar c = true) :
    c ≠ ']' ∧ c ≠ '+' := by
  constructor <;> intro hc <;> subst hc <;> simp [isDecChar] at h <;>
    revert h <;> decide

/-! ### List facts for the completeness proof -/

lemma findIdx?_append_first {p : Char → Bool} :
    ∀ (l : Str) (i : Nat) (c : Char) (tail : Str),
      (∀ x ∈ l, p x = false) → p c = true →
      List.findIdx? p (l ++ c :: tail) i = some (i + l.length) := by
  intro l
  induction l with
  | nil =>
    intro i c tail _ hc
    rw [List.nil_append, List.findIdx?_cons, if_pos hc]
    simp
  | cons x xs ih =>
    intro i c tail hall hc
    rw [List.cons_append, List.findIdx?_cons, if_neg (by simp [hall x (by simp)])]
    rw [ih (i + 1) c tail (fun y hy => hall y (by simp [hy])) hc]
    simp
    omega

lemma takeWhile_ne_newline :
    ∀ (l : Str), (∀ x ∈ l, x ≠ '\n') →
      (l.takeWhile (fun c => c ≠ '\n')).length = l.length := by
  intro l
  induction l with
  | nil => simp
  | cons c cs ih =>
    intro hall
    rw [List.takeWhile_cons, if_pos (by simp [hall c (by simp)])]
    simp only [List.length_cons]
    rw [ih (fun y hy => hall y (by simp [hy]))]

/-! ### One scanner step per well-formed unit -/

lemma scanStep_plain {reserved : Str} {c : Char}
    (hres : reserved.contains c = false) (hbs : c ≠ '\\') (done tail : Str) :
    altP (take_escaped_char reserved) (take_char reserved) ⟨done, c :: tail⟩
      = .ok (⟨c :: done, tail⟩, c) := by
  have hmem : c ∉ reserved := by simpa using hres
  simp [altP, take_escaped_char, take_char, anycharP, tagP, List.isPrefixOf,
    LSpan.adv, hres, hmem, hbs, Ne.symm hbs, unknownErr]

lemma scanStep_escLit {reserved : Str} {c : Char}
    (h : c = '\\' ∨ reserved.contains c = true)
    (hres4 : ∀ x, reserved.contains x = true →
      x ≠ 'u' ∧ x ≠ 'n' ∧ x ≠ 't' ∧ x ≠ 'r' ∧ x ≠ '\\')
    (done tail : Str) :
    altP (take_escaped_char reserved) (take_char reserved) ⟨done, '\\' :: c :: tail⟩
      = .ok (⟨c :: '\\' :: done, tail⟩, c) := by
  rcases h with rfl | hc
  · simp [altP, take_escaped_char, tagP, List.isPrefixOf, anycharP, LSpan.adv]
  · obtain ⟨hu, hn, ht, hr, hb⟩ := hres4 c hc
    have hmem : c ∈ reserved := by simpa using hc
    simp [altP, take_escaped_char, tagP, List.isPrefixOf, anycharP, LSpan.adv,
      hu, hn, ht, hr, hb, hc, hmem]

lemma scanStep_escN {reserved : Str} (done tail : Str) :
    altP (take_escaped_char reserved) (take_char reserved) ⟨done, '\\' :: 'n' :: tail⟩
      = .ok (⟨'n' :: '\\' :: done, tail⟩, '\n') := by
  simp [altP, take_escaped_char, tagP, List.isPrefixOf, anycharP, LSpan.adv]

lemma scanStep_escT {reserved : Str} (done tail : Str) :
    altP (take_escaped_char reserved) (take_char reserved) ⟨done, '\\' :: 't' :: tail⟩
      = .ok (⟨'t' :: '\\' :: done, tail⟩, '\t') := by
  simp [altP, take_escaped_char, tagP, List.isPrefixOf, anycharP, LSpan.adv]

lemma scanStep_escR {reserved : Str} (done tail : Str) :
    altP (take_escaped_char reserved) (take_char reserved) ⟨done, '\\' :: 'r' :: tail⟩
      = .ok (⟨'r' :: '\\' :: done, tail⟩, '\r') := by
  simp [altP, take_escaped_char, tagP, List.isPrefixOf, anycharP, LSpan.adv]

lemma take_unicode_wf {ds : Str} (h2 : 2 ≤ utf8Len ds) (h8 : utf8Len ds ≤ 8)
    (hhex : ds.all isHexChar = true) (hval : isScalarValue (hexVal ds) = true)
    (done tail : Str) :
    take_unicode ⟨done, lbrace :: (ds ++ rbrace :: tail)⟩
      = .ok (⟨rbrace :: (ds.reverse ++ lbrace :: done), tail⟩,
          Char.ofNat (hexVal ds)) := by
  have hhex' : ∀ x ∈ ds, isHexChar x = true := fun x hx => by
    exact List.all_eq_true.mp hhex x hx
  have hfind : List.findIdx? (fun x => x = rbrace) (ds ++ rbrace :: tail) 0
      = some ds.length := by
    rw [findIdx?_append_first ds 0 rbrace tail
      (fun x hx => by simp [(isHexChar_ne (hhex' x hx)).1])
      (by simp)]
    simp
  have hds_ne : ds ≠ [] := by
    intro hnil
    rw [hnil] at h2
    simp [utf8Len] at h2
  have hlen8 : ds.length ≤ 8 := le_trans (length_le_utf8Len ds) h8
  have hparse : ∃ v, parseDigits hexDigitVal 16 ds 0 = some v ∧ v < 2 ^ 32 := by
    obtain ⟨v, hv, hlt⟩ := parseDigits_lt hexDigitVal 16
      (fun c d h => hexDigitVal_lt h) ds 0
      (by
        apply List.all_eq_true.mpr
        intro x hx
        exact hhex' x hx)
    refine ⟨v, hv, lt_of_lt_of_le hlt ?_⟩
    calc (0 + 1) * 16 ^ ds.length = 16 ^ ds.length := by ring
      _ ≤ 16 ^ 8 := Nat.pow_le_pow_right (by norm_num) hlen8
      _ = 2 ^ 32 := by norm_num
  obtain ⟨v, hv, hv32⟩ := hparse
  have hvval : hexVal ds = v := by
    unfold hexVal
    rw [hv]
    rfl
  have hstrip : stripPlus ds = ds := by
    unfold stripPlus
    cases hds : ds with
    | nil => simp
    | cons d ds2 =>
      rw [if_neg]
      simp only [List.head?_cons, Option.some.injEq]
      have : isHexChar d = true := hhex' d (by rw [hds]; simp)
      exact (isHexChar_ne this).2
  have hhexparse : hexParse ds = some v := by
    unfold hexParse
    rw [hstrip, if_neg (by simp [hds_ne]), hv]
    dsimp only
    rw [if_pos hv32]
  unfold take_unicode
  rw [show tagP [lbrace] ⟨done, lbrace :: (ds ++ rbrace :: tail)⟩
      = .ok (⟨lbrace :: done, ds ++ rbrace :: tail⟩, ⟨done, [lbrace]⟩) from by
    simp [tagP, List.isPrefixOf, LSpan.adv]]
  dsimp only
  rw [show takeUntilCh rbrace ⟨lbrace :: done, ds ++ rbrace :: tail⟩
      = .ok (⟨rbrace :: (ds.reverse ++ lbrace :: done), tail⟩,
          ⟨lbrace :: done, ds⟩) from by
    unfold takeUntilCh
    simp only [hfind]
    have htake : (ds ++ rbrace :: tail).take ds.length = ds := by
      rw [List.take_left]
    have hadv : LSpan.adv ⟨lbrace :: done, ds ++ rbrace :: tail⟩ (ds.length + 1)
        = ⟨rbrace :: (ds.reverse ++ lbrace :: done), tail⟩ := by
      unfold LSpan.adv
      have hassoc : ds ++ rbrace :: tail = (ds ++ [rbrace]) ++ tail := by
        simp
      rw [hassoc]
      have hlen : (ds ++ [rbrace]).length = ds.length + 1 := by simp
      rw [← hlen, List.take_left, List.drop_left]
      simp
    rw [hadv, htake]]
  dsimp only
  rw [if_neg (by
    simp only [not_or, not_lt]
    omega)]
  rw [hhexparse]
  dsimp only
  rw [hvval, if_pos (hvval ▸ hval)]

lemma scanStep_escU {reserved : Str} {ds : Str}
    (h2 : 2 ≤ utf8Len ds) (h8 : utf8Len ds ≤ 8)
    (hhex : ds.all isHexChar = true) (hval : isScalarValue (hexVal ds) = true)
    (done tail : Str) :
    altP (take_escaped_char reserved) (take_char reserved)
        ⟨done, '\\' :: 'u' :: lbrace :: (ds ++ rbrace :: tail)⟩
      = .ok (⟨rbrace :: (ds.reverse ++ lbrace :: 'u' :: '\\' :: done), tail⟩,
          Char.ofNat (hexVal ds)) := by
  have hu := take_unicode_wf h2 h8 hhex hval ('u' :: '\\' :: done) tail
  simp [altP, take_escaped_char, tagP, List.isPrefixOf, anycharP, LSpan.adv, hu]

/-! ### Scanner completeness on rendered units -/

lemma scan_units (cond : Char → Bool) (reserved : Str)
    (hbs : cond '\\' = false)
    (hres4 : ∀ x, reserved.contains x = true →
      x ≠ 'u' ∧ x ≠ 'n' ∧ x ≠ 't' ∧ x ≠ 'r' ∧ x ≠ '\\') :
    ∀ (us : List SpecUnit), us.all (wfUnit cond reserved) = true →
    ∀ (done rest buf : Str), (rest = [] ∨ cond (rest.headD ' ') = true) →
      ∃ out, take_string_loop cond reserved ⟨done, renderText us ++ rest⟩ buf
        = .ok (⟨(renderText us).reverse ++ done, rest⟩, out) := by
  intro us
  induction us with
  | nil =>
    intro _ done rest buf hstop
    refine ⟨buf, ?_⟩
    rw [take_string_loop]
    simp only [renderText, List.nil_append, List.reverse_nil]
    rcases hstop with rfl | hcond
    · rfl
    · cases rest with
      | nil => rfl
      | cons c cs =>
        simp only [List.headD_cons] at hcond
        dsimp only
        rw [if_pos hcond]
  | cons u us ih =>
    intro hall done rest buf hstop
    simp only [List.all_cons, Bool.and_eq_true] at hall
    obtain ⟨hu, hus⟩ := hall
    cases u with
    | plain c =>
      simp only [wfUnit, Bool.and_eq_true, Bool.not_eq_true'] at hu
      obtain ⟨⟨hcnd, hresc⟩, hbsc⟩ := hu
      have hbsc' : c ≠ '\\' := by
        intro hcc
        rw [hcc] at hbsc
        simp at hbsc
      rw [take_string_loop]
      simp only [renderText, renderUnit, List.cons_append, List.nil_append]
      rw [if_neg (by simp [hcnd])]
      rw [scanStep_plain hresc hbsc' done (renderText us ++ rest)]
      obtain ⟨out, hout⟩ := ih hus (c :: done) rest (buf ++ [c]) hstop
      refine ⟨out, ?_⟩
      dsimp only
      rw [hout]
      simp
    | escLit c =>
      simp only [wfUnit, Bool.or_eq_true] at hu
      have hor : c = '\\' ∨ reserved.contains c = true := by
        rcases hu with h | h
        · left
          simpa using h
        · right
          exact h
      rw [take_string_loop]
      simp only [renderText, renderUnit, List.cons_append, List.nil_append]
      rw [if_neg (by simp [hbs])]
      rw [scanStep_escLit hor hres4 done (renderText us ++ rest)]
      obtain ⟨out, hout⟩ := ih hus (c :: '\\' :: done) rest (buf ++ [c]) hstop
      refine ⟨out, ?_⟩
      dsimp only
      rw [hout]
      simp
    | escN =>
      rw [take_string_loop]
      simp only [renderText, renderUnit, List.cons_append, List.nil_append]
      rw [if_neg (by simp [hbs])]
      rw [scanStep_escN done (renderText us ++ rest)]
      obtain ⟨out, hout⟩ := ih hus ('n' :: '\\' :: done) rest (buf ++ ['\n']) hstop
      refine ⟨out, ?_⟩
      dsimp only
      rw [hout]
      simp
    | escT =>
      rw [take_string_loop]
      simp only [renderText, renderUnit, List.cons_append, List.nil_append]
      rw [if_neg (by simp [hbs])]
      rw [scanStep_escT done (renderText us ++ rest)]
      obtain ⟨out, hout⟩ := ih hus ('t' :: '\\' :: done) rest (buf ++ ['\t']) hstop
      refine ⟨out, ?_⟩
      dsimp only
      rw [hout]
      simp
    | escR =>
      rw [take_string_loop]
      simp only [renderText, renderUnit, List.cons_append, List.nil_append]
      rw [if_neg (by simp [hbs])]
      rw [scanStep_escR done (renderText us ++ rest)]
      obtain ⟨out, hout⟩ := ih hus ('r' :: '\\' :: done) rest (buf ++ ['\r']) hstop
      refine ⟨out, ?_⟩
      dsimp only
      rw [hout]
      simp
    | escU ds =>
      simp only [wfUnit, Bool.and_eq_true, decide_eq_true_eq] at hu
      obtain ⟨⟨⟨h2, h8⟩, hhex⟩, hval⟩ := hu
      have hrender : renderText (SpecUnit.escU ds :: us) ++ rest
          = '\\' :: 'u' :: lbrace :: (ds ++ rbrace :: (renderText us ++ rest)) := by
        simp [renderText, renderUnit]
      rw [take_string_loop]
      rw [show (⟨done, renderText (SpecUnit.escU ds :: us) ++ rest⟩ : LSpan)
          = ⟨done, '\\' :: 'u' :: lbrace :: (ds ++ rbrace :: (renderText us ++ rest))⟩ from by
        rw [hrender]]
      dsimp only
      rw [if_neg (by simp [hbs])]
      rw [scanStep_escU h2 h8 hhex (by simp [hval]) done (renderText us ++ rest)]
      obtain ⟨out, hout⟩ :=
        ih hus (rbrace :: (ds.reverse ++ lbrace :: 'u' :: '\\' :: done)) rest
          (buf ++ [Char.ofNat (hexVal ds)]) hstop
      refine ⟨out, ?_⟩
      dsimp only
      rw [hout]
      simp [renderText, renderUnit]

/-! ### Key completeness -/

lemma renderText_tok_head_ne_quote (us : List SpecUnit)
    (hwf : us.all (wfUnit is_separator RESERVED_TOKEN) = true)
    (rest : Str) (hsep : rest = [] ∨ is_separator (rest.headD ' ') = true) :
    ¬ ((renderText us ++ rest).head? = some '\"') := by
  cases us with
  | nil =>
    simp only [renderText, List.nil_append]
    rcases hsep with rfl | hcond
    · simp
    · cases rest with
      | nil => simp
      | cons c cs =>
        simp only [List.headD_cons] at hcond
        simp only [List.head?_cons, Option.some.injEq]
        intro hc
        rw [hc] at hcond
        revert hcond
        decide
  | cons u us2 =>
    simp only [List.all_cons, Bool.and_eq_true] at hwf
    obtain ⟨hu, _⟩ := hwf
    cases u with
    | plain c =>
      simp only [wfUnit, Bool.and_eq_true, Bool.not_eq_true'] at hu
      obtain ⟨⟨_, hresc⟩, _⟩ := hu
      simp only [renderText, renderUnit, List.cons_append, List.singleton_append,
        List.head?_cons, Option.some.injEq]
      intro hc
      rw [hc] at hresc
      revert hresc
      decide
    | escLit c => simp [renderText, renderUnit]
    | escN => simp [renderText, renderUnit]
    | escT => simp [renderText, renderUnit]
    | escR => simp [renderText, renderUnit]
    | escU ds => simp [renderText, renderUnit]

lemma take_key_strKey (us : List SpecUnit)
    (hwf : us.all (wfUnit is_separator RESERVED_TOKEN) = true)
    (done rest : Str) (hsep : rest = [] ∨ is_separator (rest.headD ' ') = true) :
    ∃ out, take_key ⟨done, '.' :: (renderText us ++ rest)⟩
      = .ok (⟨(renderText us).reverse ++ '.' :: done, rest⟩, .String out) := by
  obtain ⟨out, hscan⟩ := scan_units is_separator RESERVED_TOKEN (by decide)
    (by
      intro x hx
      have hmem : x ∈ [lbrace, rbrace, '[', ']', '.', '$', '\"'] := by
        simpa [RESERVED_TOKEN] using hx
      fin_cases hmem <;> decide) us hwf ('.' :: done) rest [] hsep
  refine ⟨out, ?_⟩
  unfold take_key altP take_string_key
  rw [show tagP ['.'] ⟨done, '.' :: (renderText us ++ rest)⟩
      = .ok (⟨'.' :: done, renderText us ++ rest⟩, ⟨done, ['.']⟩) from by
    simp [tagP, List.isPrefixOf, LSpan.adv]]
  dsimp only
  rw [if_neg (renderText_tok_head_ne_quote us hwf rest hsep)]
  unfold take_string_with_escape_until
  rw [hscan]

lemma take_key_quotKey (us : List SpecUnit)
    (hwf : us.all (wfUnit (fun c => c = '\"') RESERVED_RAW_LITERAL) = true)
    (done rest : Str) :
    ∃ out, take_key ⟨done, '.' :: '\"' :: (renderText us ++ '\"' :: rest)⟩
      = .ok (⟨'\"' :: ((renderText us).reverse ++ '\"' :: '.' :: done), rest⟩,
          .String out) := by
  obtain ⟨out, hscan⟩ := scan_units (fun c => c = '\"') RESERVED_RAW_LITERAL
    (by decide)
    (by
      intro x hx
      have hmem : x ∈ ['\"'] := by simpa [RESERVED_RAW_LITERAL] using hx
      fin_cases hmem <;> decide) us hwf ('\"' :: '.' :: done) ('\"' :: rest) []
    (by right; simp)
  refine ⟨out, ?_⟩
  unfold take_key altP take_string_key
  rw [show tagP ['.'] ⟨done, '.' :: '\"' :: (renderText us ++ '\"' :: rest)⟩
      = .ok (⟨'.' :: done, '\"' :: (renderText us ++ '\"' :: rest)⟩, ⟨done, ['.']⟩) from by
    simp [tagP, List.isPrefixOf, LSpan.adv]]
  dsimp only
  rw [if_pos (by simp)]
  rw [show tagP ['\"'] ⟨'.' :: done, '\"' :: (renderText us ++ '\"' :: rest)⟩
      = .ok (⟨'\"' :: '.' :: done, renderText us ++ '\"' :: rest⟩, ⟨'.' :: done, ['\"']⟩) from by
    simp [tagP, List.isPrefixOf, LSpan.adv]]
  dsimp only
  unfold take_string_with_escape_until
  rw [hscan]
  dsimp only
  rw [show tagP ['\"'] ⟨(renderText us).reverse ++ '\"' :: '.' :: done, '\"' :: rest⟩
      = .ok (⟨'\"' :: ((renderText us).reverse ++ '\"' :: '.' :: done), rest⟩,
          ⟨(renderText us).reverse ++ '\"' :: '.' :: done, ['\"']⟩) from by
    simp [tagP, List.isPrefixOf, LSpan.adv]]

lemma take_key_numKey (ds : Str) (hne : ds ≠ []) (hdec : ds.all isDecChar = true)
    (hbound : decVal ds < 2 ^ 64) (done rest : Str) :
    take_key ⟨done, '[' :: (ds ++ ']' :: rest)⟩
      = .ok (⟨']' :: (ds.reverse ++ '[' :: done), rest⟩, .Numeric (decVal ds)) := by
  have hdec' : ∀ x ∈ ds, isDecChar x = true := fun x hx => List.all_eq_true.mp hdec x hx
  have hfind : List.findIdx? (fun x => x = ']') (ds ++ ']' :: rest) 0
      = some ds.length := by
    rw [findIdx?_append_first ds 0 ']' rest
      (fun x hx => by simp [(isDecChar_ne (hdec' x hx)).1]) (by simp)]
    simp
  obtain ⟨v, hv, _⟩ := parseDigits_lt decDigitVal 10
    (fun c d h => decDigitVal_lt h) ds 0
    (by
      apply List.all_eq_true.mpr
      intro x hx
      exact hdec' x hx)
  have hvval : decVal ds = v := by
    unfold decVal
    rw [hv]
    rfl
  have hstrip : stripPlus ds = ds := by
    unfold stripPlus
    cases hds : ds with
    | nil => simp
    | cons d ds2 =>
      rw [if_neg]
      simp only [List.head?_cons, Option.some.injEq]
      have : isDecChar d = true := hdec' d (by rw [hds]; simp)
      exact (isDecChar_ne this).2
  have hdecparse : decParse ds = some v := by
    unfold decParse
    rw [hstrip, if_neg (by simp [hne]), hv]
    dsimp only
    rw [if_pos (hvval ▸ hbound)]
  unfold take_key altP take_string_key
  rw [show tagP ['.'] ⟨done, '[' :: (ds ++ ']' :: rest)⟩
      = .error (unknownErr ⟨done, '[' :: (ds ++ ']' :: rest)⟩) from by
    simp [tagP, List.isPrefixOf, unknownErr]]
  dsimp only [unknownErr]
  unfold take_numeric_key
  rw [show tagP ['['] ⟨done, '[' :: (ds ++ ']' :: rest)⟩
      = .ok (⟨'[' :: done, ds ++ ']' :: rest⟩, ⟨done, ['[']⟩) from by
    simp [tagP, List.isPrefixOf, LSpan.adv]]
  dsimp only
  rw [show takeUntilCh ']' ⟨'[' :: done, ds ++ ']' :: rest⟩
      = .ok (⟨']' :: (ds.reverse ++ '[' :: done), rest⟩, ⟨'[' :: done, ds⟩) from by
    unfold takeUntilCh
    simp only [hfind]
    have htake : (ds ++ ']' :: rest).take ds.length = ds := by
      rw [List.take_left]
    have hadv : LSpan.adv ⟨'[' :: done, ds ++ ']' :: rest⟩ (ds.length + 1)
        = ⟨']' :: (ds.reverse ++ '[' :: done), rest⟩ := by
      unfold LSpan.adv
      have hassoc : ds ++ ']' :: rest = (ds ++ [']']) ++ rest := by simp
      rw [hassoc]
      have hlen : (ds ++ [']']).length = ds.length + 1 := by simp
      rw [← hlen, List.take_left, List.drop_left]
      simp
    rw [hadv, htake]]
  dsimp only
  rw [hdecparse]
  dsimp only
  rw [hvval]

lemma key_step (k : SpecKey) (hwf : wfKey k = true) (done rest : Str)
    (hsep : rest = [] ∨ is_separator (rest.headD ' ') = true) :
    ∃ key, take_spanned_key ⟨done, renderKey k ++ rest⟩
      = .ok (⟨(renderKey k).reverse ++ done, rest⟩, key) := by
  cases k with
  | strKey us =>
    have hco : renderKey (SpecKey.strKey us) ++ rest
        = '.' :: (renderText us ++ rest) := by simp [renderKey]
    have hdone : ((renderKey (SpecKey.strKey us)).reverse ++ done : Str)
        = (renderText us).reverse ++ '.' :: done := by simp [renderKey]
    obtain ⟨out, hk⟩ := take_key_strKey us (by simpa [wfKey] using hwf) done rest hsep
    refine ⟨⟨.String out,
      ⟨LSpan.col ⟨done, renderKey (SpecKey.strKey us) ++ rest⟩,
        LSpan.col ⟨done, renderKey (SpecKey.strKey us) ++ rest⟩ +
          ((renderKey (SpecKey.strKey us) ++ rest).length - rest.length)⟩⟩, ?_⟩
    rw [hco, hdone]
    unfold take_spanned_key
    rw [hk]
  | quotKey us =>
    have hco : renderKey (SpecKey.quotKey us) ++ rest
        = '.' :: '\"' :: (renderText us ++ '\"' :: rest) := by simp [renderKey]
    have hdone : ((renderKey (SpecKey.quotKey us)).reverse ++ done : Str)
        = '\"' :: ((renderText us).reverse ++ '\"' :: '.' :: done) := by
      simp [renderKey]
    obtain ⟨out, hk⟩ := take_key_quotKey us (by simpa [wfKey] using hwf) done rest
    refine ⟨⟨.String out,
      ⟨LSpan.col ⟨done, renderKey (SpecKey.quotKey us) ++ rest⟩,
        LSpan.col ⟨done, renderKey (SpecKey.quotKey us) ++ rest⟩ +
          ((renderKey (SpecKey.quotKey us) ++ rest).length - rest.length)⟩⟩, ?_⟩
    rw [hco, hdone]
    unfold take_spanned_key
    rw [hk]
  | numKey ds =>
    simp only [wfKey, Bool.and_eq_true, Bool.not_eq_true', decide_eq_true_eq] at hwf
    obtain ⟨⟨hne', hdec⟩, hbound⟩ := hwf
    have hne : ds ≠ [] := by
      intro h
      rw [h] at hne'
      exact absurd hne' (by decide)
    have hco : renderKey (SpecKey.numKey ds) ++ rest
        = '[' :: (ds ++ ']' :: rest) := by simp [renderKey]
    have hdone : ((renderKey (SpecKey.numKey ds)).reverse ++ done : Str)
        = ']' :: (ds.reverse ++ '[' :: done) := by simp [renderKey]
    refine ⟨⟨.Numeric (decVal ds),
      ⟨LSpan.col ⟨done, renderKey (SpecKey.numKey ds) ++ rest⟩,
        LSpan.col ⟨done, renderKey (SpecKey.numKey ds) ++ rest⟩ +
          ((renderKey (SpecKey.numKey ds) ++ rest).length - rest.length)⟩⟩, ?_⟩
    rw [hco, hdone]
    unfold take_spanned_key
    rw [take_key_numKey ds hne hdec hbound done rest]

lemma take_spanned_key_at_rbrace (done tail : Str) :
    take_spanned_key ⟨done, rbrace :: tail⟩
      = .error (.error ⟨.InvalidAccessorKey,
          ⟨LSpan.col ⟨done, rbrace :: tail⟩, 0⟩⟩) := by
  have hdot : ('.' == rbrace) = false := by decide
  have hbrk : ('[' == rbrace) = false := by decide
  have hfind : find_next_separator ⟨done, rbrace :: tail⟩ = 0 := by
    unfold find_next_separator take_string_with_escape_until
    rw [take_string_loop]
    dsimp only
    rw [if_pos (by decide)]
    simp
  unfold take_spanned_key take_key altP take_string_key take_numeric_key
  rw [show tagP ['.'] ⟨done, rbrace :: tail⟩
      = .error (unknownErr ⟨done, rbrace :: tail⟩) from by
    simp [tagP, List.isPrefixOf, hdot]]
  rw [show tagP ['['] ⟨done, rbrace :: tail⟩
      = .error (unknownErr ⟨done, rbrace :: tail⟩) from by
    simp [tagP, List.isPrefixOf, hbrk]]
  dsimp only [unknownErr]
  rw [hfind]

lemma renderKeys_head_sep (ks : List SpecKey) :
    renderKeys ks ++ [rbrace] = [] ∨
      is_separator ((renderKeys ks ++ [rbrace]).headD ' ') = true := by
  right
  cases ks with
  | nil =>
    simp only [renderKeys, List.nil_append, List.headD_cons]
    decide
  | cons k ks2 =>
    cases k with
    | strKey us => simp [renderKeys, renderKey, is_separator]
    | quotKey us => simp [renderKeys, renderKey, is_separator]
    | numKey ds => simp [renderKeys, renderKey, is_separator]

lemma keys_loop_complete :
    ∀ (ks : List SpecKey), ks.all wfKey = true →
      ∀ (done : Str) (keys0 : List SpannedAccessorKey),
        ∃ keys, take_keys_loop ⟨done, renderKeys ks ++ [rbrace]⟩ keys0
          = .ok (⟨(renderKeys ks).reverse ++ done, [rbrace]⟩, keys) := by
  intro ks
  induction ks with
  | nil =>
    intro _ done keys0
    refine ⟨keys0, ?_⟩
    simp only [renderKeys, List.nil_append, List.reverse_nil]
    rw [take_keys_loop, take_spanned_key_at_rbrace]
  | cons k ks2 ih =>
    intro hwf done keys0
    simp only [List.all_cons, Bool.and_eq_true] at hwf
    obtain ⟨hwfk, hwfks⟩ := hwf
    obtain ⟨key, hk⟩ :=
      key_step k hwfk done (renderKeys ks2 ++ [rbrace]) (renderKeys_head_sep ks2)
    obtain ⟨keys, hloop⟩ := ih hwfks ((renderKey k).reverse ++ done) (keys0 ++ [key])
    refine ⟨keys, ?_⟩
    rw [show (renderKeys (k :: ks2) ++ [rbrace] : Str)
        = renderKey k ++ (renderKeys ks2 ++ [rbrace]) from by simp [renderKeys]]
    rw [take_keys_loop, hk]
    dsimp only
    rw [hloop]
    simp [renderKeys]

lemma accessor_complete (a : SpecAccessor) (hwf : wfAccessor a = true) :
    ∃ keys, take_spanned_accessor (LSpan.ofInput (render a))
      = .ok (⟨(render a).reverse, []⟩,
          ⟨keys, ⟨0, LSpan.col ⟨(render a).reverse, []⟩⟩⟩) := by
  simp only [wfAccessor, Bool.and_eq_true] at hwf
  obtain ⟨hroot, hkeys⟩ := hwf
  obtain ⟨out, hscan⟩ := scan_units is_separator RESERVED_TOKEN (by decide)
    (by
      intro x hx
      have hmem : x ∈ [lbrace, rbrace, '[', ']', '.', '$', '\"'] := by
        simpa [RESERVED_TOKEN] using hx
      fin_cases hmem <;> decide) a.root hroot [lbrace, '$']
    (renderKeys a.keys ++ [rbrace]) [] (renderKeys_head_sep a.keys)
  obtain ⟨keys, hloop⟩ := keys_loop_complete a.keys hkeys
    ((renderText a.root).reverse ++ [lbrace, '$']) _
  refine ⟨keys, ?_⟩
  unfold take_spanned_accessor LSpan.ofInput
  rw [show (render a : Str)
      = '$' :: lbrace :: (renderText a.root ++ (renderKeys a.keys ++ [rbrace])) from by
    simp [render]]
  rw [show tagP ['$', lbrace]
        ⟨[], '$' :: lbrace :: (renderText a.root ++ (renderKeys a.keys ++ [rbrace]))⟩
      = .ok (⟨[lbrace, '$'], renderText a.root ++ (renderKeys a.keys ++ [rbrace])⟩,
          ⟨[], ['$', lbrace]⟩) from by
    simp [tagP, List.isPrefixOf, LSpan.adv]]
  dsimp only
  unfold take_string_with_escape_until
  rw [hscan]
  dsimp only
  rw [hloop]
  dsimp only
  rw [show tagP [rbrace]
        ⟨(renderKeys a.keys).reverse ++ ((renderText a.root).reverse ++ [lbrace, '$']),
          [rbrace]⟩
      = .ok (⟨rbrace :: ((renderKeys a.keys).reverse
            ++ ((renderText a.root).reverse ++ [lbrace, '$'])), []⟩,
          ⟨(renderKeys a.keys).reverse ++ ((renderText a.root).reverse ++ [lbrace, '$']),
            [rbrace]⟩) from by
    simp [tagP, List.isPrefixOf, LSpan.adv]]
  dsimp only
  have hrev : (('$' :: lbrace ::
        (renderText a.root ++ (renderKeys a.keys ++ [rbrace]))).reverse : Str)
      = rbrace :: ((renderKeys a.keys).reverse
          ++ ((renderText a.root).reverse ++ [lbrace, '$'])) := by
    simp
  rw [← hrev]
  have hcol0 : LSpan.col ⟨[], ['$', lbrace]⟩ = 0 := by simp [LSpan.col]
  rw [hcol0]

/-- A grammatical accessor whose root text contains a raw newline. -/
def c2cex : SpecAccessor := ⟨[.plain 'a', .plain '\n', .plain 'b'], []⟩

/-- A grammatical accessor exercising all three key forms: a plain root,
a numeric key, a quoted key holding an escape, and an unquoted string key. -/
def c2wit : SpecAccessor :=
  ⟨[.plain 'k'], [.numKey ['1'], .quotKey [.escN], .strKey [.plain 'x']]⟩

/-- C2, counterexample: the grammar admits a raw newline in the root text;
on such an input the parser succeeds and consumes all 6 characters, but
`get_utf8_column` restarts at the newline, so the accessor's span is `(0, 2)`
instead of `[0, 6)` — the span does not equal `[0, n)` for `n` the character
count of the consumed text. -/
theorem c2_counterexample_newline_shrinks_span :
    wfAccessor c2cex = true ∧
    (render c2cex).length = 6 ∧
    take_spanned_accessor (LSpan.ofInput (render c2cex))
      = .ok (⟨(render c2cex).reverse, []⟩,
          ⟨[⟨.String ['a', '\n', 'b'], ⟨2, 5⟩⟩], ⟨0, 2⟩⟩) ∧
    (2 : Nat) ≠ (render c2cex).length := by
  refine ⟨by decide, by decide, ?_, by decide⟩
  rw [take_spanned_accessor_evalF]
  decide

/-- C2 (amended): for every accessor of the grammar whose rendered text
contains no raw newline character, `take_spanned_accessor` succeeds, consumes
the whole input, and the returned accessor's span is exactly `[0, n)` where
`n` is the character count of the consumed text. -/
theorem c2_valid_accessor_full_span_no_newline (a : SpecAccessor)
    (hwf : wfAccessor a = true) (hnl : '\n' ∉ render a) :
    ∃ keys, take_spanned_accessor (LSpan.ofInput (render a))
      = .ok (⟨(render a).reverse, []⟩, ⟨keys, ⟨0, (render a).length⟩⟩) := by
  obtain ⟨keys, h⟩ := accessor_complete a hwf
  refine ⟨keys, ?_⟩
  rw [h]
  have hmem : ∀ x ∈ (render a).reverse, x ≠ '\n' := fun x hx he =>
    hnl (he ▸ List.mem_reverse.mp hx)
  have hcol : LSpan.col ⟨(render a).reverse, []⟩ = (render a).length := by
    simpa [LSpan.col] using takeWhile_ne_newline ((render a).reverse) hmem
  rw [hcol]

/-- Witness: the amended C2 theorem applied to a concrete accessor using all
three key forms. -/
theorem c2_valid_accessor_full_span_no_newline_witness :
    ∃ keys, take_spanned_accessor (LSpan.ofInput (render c2wit))
      = .ok (⟨(render c2wit).reverse, []⟩, ⟨keys, ⟨0, (render c2wit).length⟩⟩) :=
  c2_valid_accessor_full_span_no_newline c2wit (by decide) (by decide)

end Accessor
